import Mathlib

/-!
# Verification of the logseq-todoist-backup reconciliation engine

Shallow embedding of the TypeScript sources (`src/blocks.ts`, `src/todoist.ts`,
`src/settings.ts`, `src/constants.ts`) of the `logseq-todoist-backup` plugin,
together with proofs settling the frozen specification claims.

Modelling conventions, used throughout:

* A JavaScript string that is block content is represented by its list of
  lines (`List String`): every content manipulated by the engine is built by
  joining lines with `"\n"` and re-split with `"\n"`-aware regexes, so the
  line list is a faithful representation.  Single-line strings (titles,
  property values, ...) are plain `String`s and character-level operations
  are carried out on `List Char`.
* `x ?? y` (nullish coalescing) on a `T | null | undefined` value is
  `Option.getD` / `Option.orElse`; JavaScript string truthiness
  (`if (s)` is false exactly for `""`, `null`, `undefined`) is made explicit
  at each use site.
* Task ids (`string | number` in TypeScript) are modelled by their
  `String(id)` image, which is the only way the engine ever consumes them.
* `Date.parse` / `new Date(...).toISOString().slice(0, 10)` are
  implementation-defined outside of ISO inputs, so they are abstracted into a
  `JsDate` environment (a timestamp parser plus a timestamp-to-ISO-date
  renderer); all date-dependent definitions are parametric in it.
* `String.prototype.localeCompare` is locale dependent and is abstracted as a
  comparator parameter `lc : String → String → Int`.
* `new RegExp(p, f)` compilation in the settings module is abstracted as a
  parameter `compile : String → String → Option ρ` (`none` models a thrown
  `SyntaxError`).
* JavaScript `Map`s are association lists with insert-or-overwrite-in-place
  semantics (`jsMapSet`), preserving key insertion order as `Map` does.
* Character classes (`\s`, `\w`, `[a-z]`, `toLowerCase`) are modelled on the
  ASCII range (plus NBSP for `\s`); text outside that range is outside the
  model, as are property values that resume on the following line via the
  `\s*`-over-`"\n"` backtracking of the `mi`-flagged property regexes.
-/

/-- JavaScript whitespace (`\s`, `String.prototype.trim`), ASCII range plus
the no-break space. -/
def isJsWs (c : Char) : Bool :=
  c = ' ' || c = '\t' || c = '\n' || c = '\r' ||
  c = Char.ofNat 11 || c = Char.ofNat 12 || c = Char.ofNat 160

/-- Core of `value.replace(/\s+/g, target)`: collapse every maximal run of
whitespace characters into the single character `target`.  The flag records
whether the previous character belonged to a whitespace run. -/
def collapseWsAux (target : Char) : Bool → List Char → List Char
  | _, [] => []
  | inRun, c :: rest =>
    if isJsWs c then
      if inRun then collapseWsAux target true rest
      else target :: collapseWsAux target true rest
    else c :: collapseWsAux target false rest

/-- `value.replace(/\s+/g, target)` on a character list. -/
def collapseWs (target : Char) (l : List Char) : List Char :=
  collapseWsAux target false l

/-- `String.prototype.trim` on a character list. -/
def trimChars (l : List Char) : List Char :=
  ((l.dropWhile isJsWs).reverse.dropWhile isJsWs).reverse

/-- `String.prototype.trim`. -/
def jsTrim (s : String) : String :=
  String.mk (trimChars s.toList)

/-- `safeText` (todoist.ts): `value.replace(/\s+/g, " ").replace(/[\r\n]+/g, " ").trim()`;
the second replace is a no-op because the first already removed every `\r`/`\n`. -/
def safeText (s : String) : String :=
  String.mk (trimChars (collapseWs ' ' s.toList))

/-- `safeText(value)` for a `string | null | undefined` argument
(`if (!value) return ""` handles the nullish cases). -/
def safeTextOpt (o : Option String) : String :=
  safeText (o.getD "")

/-- ASCII `toLowerCase` (the only case mapping our property keys need). -/
def jsToLower (s : String) : String :=
  String.mk (s.toList.map Char.toLower)

/-- `a.startsWith(b)` via character lists. -/
def strStartsWith (s p : String) : Bool :=
  p.toList.isPrefixOf s.toList

/-- Case-insensitive `startsWith`, as produced by an `i`-flagged anchored
regex whose pattern is already lower case. -/
def strStartsWithCI (s p : String) : Bool :=
  strStartsWith (jsToLower s) p

/-- The ISO date pattern `/^\d{4}-\d{2}-\d{2}$/` (`ISO_DATE_PATTERN`). -/
def isoDateTest (s : String) : Bool :=
  match s.toList with
  | [a, b, c, d, '-', e, f, '-', g, h] =>
    a.isDigit && b.isDigit && c.isDigit && d.isDigit &&
    e.isDigit && f.isDigit && g.isDigit && h.isDigit
  | _ => false

/-- First occurrence split: `findSplit c l = some (a, b)` iff `l = a ++ c :: b`
with `c ∉ a` (used for `indexOf(c)`-style scans). -/
def findSplit (target : Char) : List Char → Option (List Char × List Char)
  | [] => none
  | c :: rest =>
    if c = target then some ([], rest)
    else (findSplit target rest).map (fun p => (c :: p.1, p.2))

/-- First occurrence of the two-character sequence `]]`:
`findRR l = some (a, b)` iff `l = a ++ ']' :: ']' :: b` with the occurrence
minimal (used for `indexOf("]]")`). -/
def findRR : List Char → Option (List Char × List Char)
  | ']' :: ']' :: rest => some ([], rest)
  | c :: rest => (findRR rest).map (fun p => (c :: p.1, p.2))
  | [] => none

/-- `safeLinkText` bracket walk (todoist.ts): scan the sanitized text, keeping
well-formed `[[...]]` wiki links and `[...]` bracketed spans intact and
replacing unmatched brackets by spaces.  Structured on fuel (each loop
iteration consumes at least one character, so `fuel = length` suffices). -/
def slPieces : Nat → List Char → List Char
  | 0, _ => []
  | _ + 1, [] => []
  | fuel + 1, '[' :: rest =>
    let doubled : Option (List Char) :=
      match rest with
      | '[' :: rest2 =>
        match findRR rest2 with
        | some (a, b) => some ('[' :: '[' :: (a ++ ']' :: ']' :: slPieces fuel b))
        | none => none
      | _ => none
    match doubled with
    | some out => out
    | none =>
      match findSplit ']' rest with
      | some (a, b) => '[' :: (a ++ ']' :: slPieces fuel b)
      | none => ' ' :: slPieces fuel rest
  | fuel + 1, ']' :: rest => ' ' :: slPieces fuel rest
  | fuel + 1, c :: rest => c :: slPieces fuel rest

/-- `safeLinkText` (todoist.ts). -/
def safeLinkText (s : String) : String :=
  let sanitized := safeText s
  if sanitized = "" then ""
  else safeText (String.mk (slPieces sanitized.toList.length sanitized.toList))

/-- `safeLinkText(value)` for a nullable argument. -/
def safeLinkTextOpt (o : Option String) : String :=
  safeLinkText (o.getD "")

/-- The regex lookbehind class `[a-zA-Z0-9]` of `convertInlineTodoistLabels`. -/
def isAsciiAlnum (c : Char) : Bool :=
  ('a' ≤ c && c ≤ 'z') || ('A' ≤ c && c ≤ 'Z') || ('0' ≤ c && c ≤ '9')

/-- The regex class `[\w-]` (ASCII). -/
def isWordDash (c : Char) : Bool :=
  isAsciiAlnum c || c = '_' || c = '-'

/-- The regex class `\w` (ASCII). -/
def isJsWord (c : Char) : Bool :=
  isAsciiAlnum c || c = '_'

/-- `text.replace(/(?<![a-zA-Z0-9])@([\w-]+)/g, "#$1")` — the scan of
`convertInlineTodoistLabels` (todoist.ts), tracking the character preceding
the current position for the lookbehind.  Fuel-structured; each step consumes
at least one character. -/
def cilAux : Nat → Option Char → List Char → List Char
  | 0, _, _ => []
  | _ + 1, _, [] => []
  | fuel + 1, prev, '@' :: rest =>
    let prevOk := match prev with | none => true | some p => !isAsciiAlnum p
    let run := rest.takeWhile isWordDash
    if prevOk && !run.isEmpty then
      '#' :: (run ++ cilAux fuel (some (run.getLastD '#')) (rest.drop run.length))
    else
      '@' :: cilAux fuel (some '@') rest
  | fuel + 1, _, c :: rest => c :: cilAux fuel (some c) rest

/-- `convertInlineTodoistLabels` (todoist.ts). -/
def convertInlineTodoistLabels (s : String) : String :=
  if s = "" then ""
  else String.mk (cilAux s.toList.length none s.toList)

/-- `formatLabelTag` (todoist.ts): strip characters outside `[\w\s-]`,
trim, collapse whitespace runs to `-`, ensure a leading `#`. -/
def formatLabelTag (label : String) : String :=
  let sanitized :=
    jsTrim (String.mk (label.toList.map
      (fun c => if isJsWord c || isJsWs c || c = '-' then c else ' ')))
  if sanitized = "" then ""
  else
    let dashed := String.mk (collapseWs '-' sanitized.toList)
    if strStartsWith dashed "#" then dashed else "#" ++ dashed

/-- `String.prototype.replace` with a (non-empty) string pattern: replace the
first occurrence only. -/
def replaceFirstChars (pat rep : List Char) : List Char → List Char
  | [] => []
  | c :: rest =>
    if pat.isPrefixOf (c :: rest) then rep ++ (c :: rest).drop pat.length
    else c :: replaceFirstChars pat rep rest

/-- `s.replace(pat, rep)` for a literal string pattern. -/
def replaceFirstStr (s pat rep : String) : String :=
  String.mk (replaceFirstChars pat.toList rep.toList s.toList)

/-- `s.includes(pat)`. -/
def strContainsSub (s pat : String) : Bool :=
  decide (pat.toList <:+: s.toList)

/-- `a.endsWith(b)` via character lists. -/
def strEndsWith (s p : String) : Bool :=
  p.toList.isSuffixOf s.toList

/-- JavaScript `Map.prototype.get` on an association list. -/
def assocFind {β : Type} (m : List (String × β)) (k : String) : Option β :=
  match m with
  | [] => none
  | p :: rest => if p.1 = k then some p.2 else assocFind rest k

/-- JavaScript `Map.prototype.set` on an association list: overwrite in place
when the key exists (preserving insertion order), append otherwise. -/
def jsMapSet {β : Type} (m : List (String × β)) (k : String) (v : β) :
    List (String × β) :=
  if m.any (fun p => p.1 = k) then m.map (fun p => if p.1 = k then (k, v) else p)
  else m ++ [(k, v)]

/-- `TodoistStatus` (constants.ts): `"active" | "completed" | "deleted"`. -/
inductive TodoistStatus where
  | active
  | completed
  | deleted
deriving DecidableEq, Repr

/-- `StatusAliases` (constants.ts). -/
structure StatusAliases where
  active : String
  completed : String
  deleted : String
deriving DecidableEq, Repr

/-- `statusToAlias` (constants.ts): `aliases[status] ?? status`, with the
`!status` guard returning the active alias. -/
def statusToAlias (status : Option TodoistStatus) (aliases : StatusAliases) : String :=
  match status with
  | none => aliases.active
  | some .active => aliases.active
  | some .completed => aliases.completed
  | some .deleted => aliases.deleted

/-- `aliasToStatus` (constants.ts): recognise canonical lower-cased values
first, then the configured aliases in declaration order. -/
def aliasToStatus (value : String) (aliases : StatusAliases) : Option TodoistStatus :=
  if value = "" then none
  else
    let normalized := jsToLower (jsTrim value)
    if normalized = "active" then some .active
    else if normalized = "completed" then some .completed
    else if normalized = "deleted" then some .deleted
    else
      let trimmedValue := jsTrim value
      if trimmedValue = aliases.active then some .active
      else if trimmedValue = aliases.completed then some .completed
      else if trimmedValue = aliases.deleted then some .deleted
      else none

/-- One line of the `mi`-flagged property regex
`^<key>::\s*(.+)$`: the line must start (case-insensitively) with `key ++ "::"`
and at least one character must follow; the returned value is everything after
the `"::"` (the `\s*`/`(.+)`/`trim` combination downstream always reduces to
trimming this rest). -/
def propRest (key line : String) : Option String :=
  if strStartsWithCI line (key ++ "::") then
    let rest := String.mk (line.toList.drop (key.length + 2))
    if rest = "" then none else some rest
  else none

/-- `content.match(new RegExp("^" + key + "::\\s*(.+)$", "mi"))`: first
matching line of the content. -/
def extractProp (key : String) (content : List String) : Option String :=
  content.findSome? (propRest key)

/-- `extractTodoistId` (blocks.ts): `match ? match[1].trim() : undefined`. -/
def extractTodoistId (content : List String) : Option String :=
  (extractProp "todoist-id" content).map jsTrim

/-- JavaScript truthiness filter for an optional string
(`if (!todoistId) continue`): `""` behaves like `undefined`. -/
def idTruthy (o : Option String) : Option String :=
  match o with
  | some s => if s = "" then none else some s
  | none => none

/-- `extractTodoistStatus` (blocks.ts). -/
def extractTodoistStatus (aliases : StatusAliases) (content : List String) :
    Option TodoistStatus :=
  match extractProp "todoist-status" content with
  | none => none
  | some r => aliasToStatus (jsTrim r) aliases

/-- `hasCompletedProperty` (blocks.ts): `^todoist-completed::\s*(.+)$` with
flags `mi` tests positive. -/
def hasCompletedProperty (content : List String) : Bool :=
  (extractProp "todoist-completed" content).isSome

/-- `sanitizeDueValue` (blocks.ts): `safeText`, then strip one `[[...]]`
wrapper and trim again. -/
def sanitizeDueValue (value : String) : String :=
  let trimmed := safeText value
  if trimmed = "" then ""
  else if strStartsWith trimmed "[[" && strEndsWith trimmed "]]" then
    jsTrim (String.mk trimmed.toList.dropLast.dropLast.tail.tail)
  else trimmed

/-- `extractTodoistDue` (blocks.ts). -/
def extractTodoistDue (content : List String) : Option String :=
  (extractProp "todoist-due" content).map sanitizeDueValue

/-- `hasDueProperty` (blocks.ts): `new RegExp("^todoist-due::", "i")` —
note the missing `m` flag, so `^` anchors at the start of the whole content,
i.e. at the first line. -/
def hasDueProperty (content : List String) : Bool :=
  match content.head? with
  | some l => strStartsWithCI l "todoist-due::"
  | none => false

/-- `applyDueFallback` (blocks.ts): patch freshly computed content with a due
value recovered from the previously stored block. -/
def applyDueFallback (content : List String) (dueValue : String) : List String :=
  let normalized := sanitizeDueValue dueValue
  if normalized = "" then content
  else
    match content with
    | [] => content
    | l0 :: rest =>
      let lines1 : List String :=
        if strContainsSub l0 "[[No due date]]" then
          replaceFirstStr l0 "[[No due date]]" ("[[" ++ normalized ++ "]]") :: rest
        else l0 :: rest
      let dueLine := "todoist-due:: " ++ normalized
      match lines1.findIdx? (fun line => strStartsWithCI line "todoist-due::") with
      | some i => lines1.set i dueLine
      | none =>
        let insertIdx :=
          match lines1.findIdx? (fun line => strStartsWith line "todoist-project::") with
          | some pIdx => pIdx + 1
          | none => 1
        lines1.insertIdx insertIdx dueLine

/-- `PLACEHOLDER_CONTENT` (constants.ts). -/
def PLACEHOLDER_CONTENT : String := "No tasks found."

/-- `BACKLOG_PAGE_SUFFIX` (constants.ts). -/
def BACKLOG_PAGE_SUFFIX : String := "Backlog"

/-- Abstraction of the JavaScript `Date` facilities used by the engine:
`parse s` models `Date.parse(s)` / `new Date(s)` (`none` when the result is
`NaN`, i.e. an invalid date) and `isoDate t` models
`new Date(t).toISOString().slice(0, 10)` for a valid timestamp `t`. -/
structure JsDate where
  parse : String → Option Int
  isoDate : Int → String

/-- `TodoistDue` (todoist.ts): `none` models both `null` and `undefined`. -/
structure TodoistDue where
  string : Option String := none
  date : Option String := none
  datetime : Option String := none
  timezone : Option String := none
deriving DecidableEq, Repr

/-- String truthiness of an optional field (`if (x)`). -/
def jsTruthy (o : Option String) : Bool :=
  match o with
  | some s => s ≠ ""
  | none => false

/-- `formatDue` (todoist.ts): ISO `due.date` verbatim, else parseable
`due.datetime`, else `due.date` with a local-midnight suffix, else
`due.string`, else `""`; every parse failure falls through. -/
def formatDue (jd : JsDate) (due : Option TodoistDue) : String :=
  match due with
  | none => ""
  | some d =>
    let step4 : String :=
      if jsTruthy d.string then
        match jd.parse (d.string.getD "") with
        | some t => jd.isoDate t
        | none => ""
      else ""
    let step3 : String :=
      if jsTruthy d.date then
        match jd.parse (d.date.getD "" ++ "T00:00:00") with
        | some t => jd.isoDate t
        | none => step4
      else step4
    let step2 : String :=
      if jsTruthy d.datetime then
        match jd.parse (d.datetime.getD "") with
        | some t => jd.isoDate t
        | none => step3
      else step3
    if jsTruthy d.date && isoDateTest (d.date.getD "") then d.date.getD ""
    else step2

/-- `dueTimestamp` (todoist.ts): `none` models `Number.POSITIVE_INFINITY`
(no/unparsable due, sorting last). -/
def dueTimestamp (jd : JsDate) (due : Option TodoistDue) : Option Int :=
  match due with
  | none => none
  | some d =>
    let s3 : Option Int :=
      if jsTruthy d.string then jd.parse (d.string.getD "") else none
    let s2 : Option Int :=
      if jsTruthy d.date then
        match jd.parse (d.date.getD "") with
        | some v => some v
        | none =>
          match jd.parse (d.date.getD "" ++ "T00:00:00Z") with
          | some v => some v
          | none => s3
      else s3
    if jsTruthy d.datetime then
      match jd.parse (d.datetime.getD "") with
      | some v => some v
      | none => s2
    else s2

/-- `formatCompletedDate` (blocks.ts): `YYYY-MM-DD` of a parseable completion
timestamp, `""` otherwise (and for nullish/empty input). -/
def formatCompletedDate (jd : JsDate) (value : Option String) : String :=
  if jsTruthy value then
    match jd.parse (value.getD "") with
    | some t => jd.isoDate t
    | none => ""
  else ""

/-- `TodoistTask` (todoist.ts), with ids in `String(id)` image and the unused
`timezone`-style fields kept.  `comments` are not modelled: no claim concerns
comment payloads. -/
structure TodoistTask where
  id : String
  content : String
  description : Option String := none
  project_id : Option String := none
  labels : Option (List String) := none
  label_ids : Option (List String) := none
  due : Option TodoistDue := none
  url : Option String := none
deriving DecidableEq, Repr

/-- `TodoistBackupTask` (todoist.ts): a task enriched with completion
metadata, merge-resolved status and the derived fallback due. -/
structure TodoistBackupTask extends TodoistTask where
  completed : Bool := false
  completed_at : Option String := none
  completed_date : Option String := none
  status : Option TodoistStatus := none
  fallbackDue : Option String := none
deriving DecidableEq, Repr

/-- `resolveLabels` (blocks.ts): `task.labels ?? task.label_ids ?? []`,
mapped through the label map, sanitized, de-duplicated in first-appearance
order. -/
def resolveLabels (t : TodoistBackupTask) (labelMap : String → Option String) :
    List String :=
  let values := (t.labels.or t.label_ids).getD []
  values.foldl
    (fun names value =>
      let name := (labelMap value).getD value
      let normalized := safeText name
      if normalized ≠ "" ∧ normalized ∉ names then names ++ [normalized]
      else names)
    []

/-- `resolvePrimaryDate` (blocks.ts): explicit due, else stored fallback due,
else (for completed tasks) the completion date, else `""`. -/
def resolvePrimaryDate (jd : JsDate) (t : TodoistBackupTask) : String :=
  let dueFormatted := formatDue jd t.due
  if dueFormatted ≠ "" then safeLinkText dueFormatted
  else
    let fallback := t.fallbackDue.getD ""
    if fallback ≠ "" then safeLinkText fallback
    else if t.completed then
      let completedFormatted :=
        formatCompletedDate jd (some ((t.completed_date.or t.completed_at).getD ""))
      if completedFormatted ≠ "" then safeLinkText completedFormatted else ""
    else ""

/-- `resolveDuePropertyValue` (blocks.ts). -/
def resolveDuePropertyValue (jd : JsDate) (t : TodoistBackupTask) : Option String :=
  let explicitDue := formatDue jd t.due
  if explicitDue ≠ "" then some explicitDue else none

/-- `blockContent` (blocks.ts, current version with status aliases): the
local bindings of the TypeScript function are modelled as named components
(`bc...`), and `blockContent` assembles the ordered line list of the generated
block text (the TypeScript function returns these lines joined with `"\n"`). -/
def bcTitle (t : TodoistBackupTask) : String :=
  convertInlineTodoistLabels
    (safeLinkText (if safeText t.content = "" then "Untitled task" else safeText t.content))

/-- `url` binding of `blockContent`: `task.url ?? default`. -/
def taskUrl (t : TodoistBackupTask) : String :=
  t.url.getD ("https://todoist.com/showTask?id=" ++ t.id)

/-- The markdown link written after `todoist-id:: `. -/
def bcIdValue (t : TodoistBackupTask) : String :=
  "[" ++ t.id ++ "](" ++ taskUrl t ++ ")"

/-- `projectName` binding of `blockContent`. -/
def bcProjectName (t : TodoistBackupTask) (projectMap : String → Option String) : String :=
  (projectMap (t.project_id.getD "")).getD "Inbox"

/-- First generated line: `${dateLogseqFormat} ${taskTitle}`. -/
def bcFirstLine (jd : JsDate) (t : TodoistBackupTask) : String :=
  (if resolvePrimaryDate jd t ≠ "" then "[[" ++ resolvePrimaryDate jd t ++ "]]"
   else "[[No due date]]") ++ " " ++ bcTitle t

/-- The optional `todoist-due::` property line. -/
def bcDueProps (jd : JsDate) (t : TodoistBackupTask) : List String :=
  match resolveDuePropertyValue jd t with
  | some v => ["todoist-due:: " ++ v]
  | none => []

/-- `description` binding of `blockContent`. -/
def bcDescription (t : TodoistBackupTask) : String :=
  safeTextOpt (some (t.description.getD ""))

/-- The optional `todoist-desc::` property line. -/
def bcDescProps (t : TodoistBackupTask) : List String :=
  if bcDescription t ≠ "" then ["todoist-desc:: " ++ bcDescription t] else []

/-- `labelsProperty` binding of `blockContent`. -/
def bcLabelsProperty (t : TodoistBackupTask) (labelMap : String → Option String) : String :=
  String.intercalate " "
    (((resolveLabels t labelMap).map (fun label =>
        let tag := formatLabelTag label
        if strStartsWith tag "#" then tag else "#" ++ tag)).filter
      (fun value => value.length > 0))

/-- The optional `todoist-labels::` property line. -/
def bcLabelProps (t : TodoistBackupTask) (labelMap : String → Option String) : List String :=
  if bcLabelsProperty t labelMap ≠ "" then ["todoist-labels:: " ++ bcLabelsProperty t labelMap]
  else []

/-- `completedValue` binding of `blockContent`. -/
def bcCompletedValue (jd : JsDate) (t : TodoistBackupTask) : String :=
  let completedDate := (t.completed_date.or t.completed_at).getD ""
  let formatted := formatCompletedDate jd (some completedDate)
  if formatted ≠ "" then "[[" ++ formatted ++ "]]"
  else if completedDate ≠ "" then safeLinkText completedDate
  else ""

/-- The optional `todoist-completed::` property line. -/
def bcCompletedProps (jd : JsDate) (t : TodoistBackupTask) : List String :=
  if t.completed then
    (if bcCompletedValue jd t ≠ "" then ["todoist-completed:: " ++ bcCompletedValue jd t] else [])
  else []

/-- `canonicalStatus` binding of `blockContent`:
`task.status ?? (task.completed ? "completed" : "active")`. -/
def bcCanonicalStatus (t : TodoistBackupTask) : TodoistStatus :=
  t.status.getD (if t.completed then .completed else .active)

def blockContent (jd : JsDate) (t : TodoistBackupTask)
    (projectMap labelMap : String → Option String) (aliases : StatusAliases) :
    List String :=
  bcFirstLine jd t ::
    (["todoist-id:: " ++ bcIdValue t,
      "todoist-project:: #" ++ bcProjectName t projectMap] ++
      bcDueProps jd t ++ bcDescProps t ++ bcLabelProps t labelMap ++
      bcCompletedProps jd t ++
      ["todoist-status:: " ++ statusToAlias (some (bcCanonicalStatus t)) aliases])

/-- `resolveTaskPageName` (blocks.ts): completion date for completed tasks,
else formatted due date, else ISO-shaped stored fallback, else Backlog. -/
def resolveTaskPageName (jd : JsDate) (t : TodoistBackupTask) (pfx : String) : String :=
  match
    (if t.completed = true then
      match t.completed_date.or t.completed_at with
      | some completedDate =>
        if completedDate ≠ "" then
          (if formatCompletedDate jd (some completedDate) ≠ "" then
            some (pfx ++ "/" ++ formatCompletedDate jd (some completedDate))
          else none)
        else none
      | none => none
    else none)
  with
  | some name => name
  | none =>
    if formatDue jd t.due ≠ "" then pfx ++ "/" ++ formatDue jd t.due
    else
      match t.fallbackDue with
      | some fallback =>
        if fallback ≠ "" then
          (if safeText fallback ≠ "" ∧ isoDateTest (safeText fallback) = true then
            pfx ++ "/" ++ safeText fallback
          else pfx ++ "/" ++ BACKLOG_PAGE_SUFFIX)
        else pfx ++ "/" ++ BACKLOG_PAGE_SUFFIX
      | none => pfx ++ "/" ++ BACKLOG_PAGE_SUFFIX

/-- A Logseq block entity: identity (`uuid`, as a number) plus its content
(list of lines).  Children are not modelled: no claim concerns comment
children, and `syncComments` never touches top-level blocks. -/
structure Block where
  buuid : Nat
  content : List String
deriving DecidableEq, Repr

/-- One step of `buildBlockMap`'s loop (blocks.ts): insert the block under
its extracted id when that id is truthy. -/
def bbStep (m : List (String × Block)) (block : Block) : List (String × Block) :=
  match idTruthy (extractTodoistId block.content) with
  | some id => jsMapSet m id block
  | none => m

/-- `buildBlockMap` (blocks.ts): map extracted (truthy) todoist ids to block
entities, later blocks overwriting earlier ones with the same id. -/
def buildBlockMap (tree : List Block) : List (String × Block) :=
  tree.foldl bbStep []

/-- The removal-pass exemption of `writeBlocksToPage` / `cleanupObsoletePages`
(blocks.ts): keep a block when its status resolves to `completed`, or when no
status resolves and a `todoist-completed::` property is present. -/
def isExemptContent (aliases : StatusAliases) (content : List String) : Bool :=
  match extractTodoistStatus aliases content with
  | some .completed => true
  | some _ => false
  | none => hasCompletedProperty content

/-- The in-flight state of `writeBlocksToPage`'s main loop: the page's
top-level blocks (in order), the id → entity map (entities carry the content
they had when inserted into the map, exactly as the JavaScript `BlockEntity`
snapshots do), the set of ids seen so far, and the fresh-uuid counter that
models `appendBlockInPage` identities. -/
structure WriteState where
  page : List Block
  bm : List (String × Block)
  seen : List String
  next : Nat

/-- One iteration of `writeBlocksToPage`'s `for (const block of blocks)` loop:
skip id-less blocks; patch the content via `applyDueFallback` when the
existing block carries a due property the new content lacks; update in place
or append; record the id as seen. -/
def writeStep (st : WriteState) (c : List String) : WriteState :=
  match idTruthy (extractTodoistId c) with
  | none => st
  | some todoistId =>
    match assocFind st.bm todoistId with
    | some existing =>
      let formatted :=
        match extractTodoistDue existing.content with
        | some existingDue =>
          if existingDue ≠ "" ∧ ¬hasDueProperty c then applyDueFallback c existingDue
          else c
        | none => c
      { st with
        page := st.page.map
          (fun b => if b.buuid = existing.buuid then { b with content := formatted } else b),
        seen := st.seen ++ [todoistId] }
    | none =>
      let created : Block := ⟨st.next, c⟩
      { page := st.page ++ [created],
        bm := jsMapSet st.bm todoistId created,
        seen := st.seen ++ [todoistId],
        next := st.next + 1 }

/-- `writeBlocksToPage` (blocks.ts), as a transformer of the page's top-level
blocks: run the main loop, then the obsolete-block removal pass (with the
completed/historical exemption), then the empty-page placeholder.  The `Nat`
argument/result is the fresh-uuid supply. -/
def writeBlocksToPage (aliases : StatusAliases) (blocks : List (List String))
    (page : List Block) (next : Nat) : List Block × Nat :=
  let bm0 := buildBlockMap page
  let st := blocks.foldl writeStep ⟨page, bm0, [], next⟩
  let removed := st.bm.filterMap
    (fun p => if p.1 ∉ st.seen ∧ ¬isExemptContent aliases p.2.content
              then some p.2.buuid else none)
  let page1 := st.page.filter (fun b => b.buuid ∉ removed)
  if blocks = [] ∧ bm0 = [] then
    (page1 ++ [⟨st.next, [PLACEHOLDER_CONTENT]⟩], st.next + 1)
  else (page1, st.next)

/-- The per-page body of `cleanupObsoletePages`'s inner loop (blocks.ts):
remove every mapped block whose id is absent from the current run, unless it
is completed/historical. -/
def cleanupPage (aliases : StatusAliases) (currentTaskIds : List String)
    (blocks : List Block) : List Block :=
  let bm := buildBlockMap blocks
  let removed := bm.filterMap
    (fun p => if p.1 ∉ currentTaskIds ∧ ¬isExemptContent aliases p.2.content
              then some p.2.buuid else none)
  blocks.filter (fun b => b.buuid ∉ removed)

/-- `cleanupObsoletePages` (blocks.ts): for every page whose name starts with
`prefix + "/"`, is not a destination of the current run and has blocks, run
the per-page removal.  `destinations` are the keys of `currentTasksByPage`
and `currentTaskIds` the `String(task.id)` set of the run. -/
def cleanupObsoletePages (aliases : StatusAliases) (pfx : String)
    (destinations : List String) (currentTaskIds : List String)
    (pages : List (String × List Block)) : List (String × List Block) :=
  pages.map
    (fun page =>
      if ¬strStartsWith page.1 (pfx ++ "/") then page
      else if page.1 ∈ destinations then page
      else if page.2 = [] then page
      else (page.1, cleanupPage aliases currentTaskIds page.2))

/-- The comparator of `buildBlocks` (blocks.ts): completed tasks last, then
ascending due timestamp (`none` = `+∞`), then `localeCompare` on the
sanitized titles (`lc` abstracts the locale). -/
def taskCmp (lc : String → String → Int) (jd : JsDate)
    (a b : TodoistBackupTask) : Int :=
  if a.completed ≠ b.completed then (if a.completed then 1 else -1)
  else
    match dueTimestamp jd a.due, dueTimestamp jd b.due with
    | none, none => lc (safeText a.content) (safeText b.content)
    | none, some _ => 1
    | some _, none => -1
    | some x, some y =>
      if x = y then lc (safeText a.content) (safeText b.content) else x - y

/-- Stable insertion sort, modelling `Array.prototype.sort` (which is
required to be stable, and agrees with the unique stable order for a
consistent comparator). -/
def jsStableInsert (le : α → α → Bool) (x : α) : List α → List α
  | [] => [x]
  | y :: ys => if le x y then x :: y :: ys else y :: jsStableInsert le x ys

/-- Stable sort by a comparator-induced `≤`. -/
def jsStableSort (le : α → α → Bool) : List α → List α
  | [] => []
  | x :: xs => jsStableInsert le x (jsStableSort le xs)

/-- `[...tasks].sort(comparator)` of `buildBlocks`. -/
def sortTasks (lc : String → String → Int) (jd : JsDate)
    (tasks : List TodoistBackupTask) : List TodoistBackupTask :=
  jsStableSort (fun a b => taskCmp lc jd a b ≤ 0) tasks

/-- `buildBlocks` (blocks.ts, current version): sorted tasks mapped to their
block contents (comment children not modelled). -/
def buildBlocks (lc : String → String → Int) (jd : JsDate)
    (tasks : List TodoistBackupTask)
    (projectMap labelMap : String → Option String) (aliases : StatusAliases) :
    List (List String) :=
  (sortTasks lc jd tasks).map (fun t => blockContent jd t projectMap labelMap aliases)

/-- One step of the `tasksByPage` grouping in `writeBlocks` (blocks.ts):
push the task into its destination's list, creating the entry on first
sight (JavaScript `Map` preserves key insertion order). -/
def groupStep (jd : JsDate) (pfx : String)
    (m : List (String × List TodoistBackupTask)) (t : TodoistBackupTask) :
    List (String × List TodoistBackupTask) :=
  let pageName := resolveTaskPageName jd t pfx
  match assocFind m pageName with
  | some l => jsMapSet m pageName (l ++ [t])
  | none => m ++ [(pageName, [t])]

/-- The `tasksByPage` map built by `writeBlocks` (blocks.ts). -/
def groupTasksByPage (jd : JsDate) (pfx : String)
    (tasks : List TodoistBackupTask) : List (String × List TodoistBackupTask) :=
  tasks.foldl (groupStep jd pfx) []

/-- The completed-task record inserted by `mergeBackupTasks` (todoist.ts):
`{ ...task, status: "completed", fallbackDue: formatDue(task.due) || undefined }`. -/
def mergeCompletedRecord (jd : JsDate) (t : TodoistBackupTask) : TodoistBackupTask :=
  { t with
    status := some .completed,
    fallbackDue := if formatDue jd t.due = "" then none else some (formatDue jd t.due) }

/-- The active-task record inserted by `mergeBackupTasks` (todoist.ts):
the active task with completion fields cleared, `status: "active"` and its
own derived `fallbackDue`. -/
def mergeActiveRecord (jd : JsDate) (t : TodoistTask) : TodoistBackupTask :=
  { toTodoistTask := t,
    completed := false,
    completed_at := none,
    completed_date := none,
    status := some .active,
    fallbackDue := if formatDue jd t.due = "" then none else some (formatDue jd t.due) }

/-- `mergeBackupTasks` (todoist.ts): completed records first, then active
records overwriting on `String(id)` collision; result is the map's values. -/
def mergeBackupTasks (jd : JsDate) (active : List TodoistTask)
    (completed : List TodoistBackupTask) : List TodoistBackupTask :=
  let m := completed.foldl
    (fun m t => jsMapSet m t.id (mergeCompletedRecord jd t))
    ([] : List (String × TodoistBackupTask))
  let m := active.foldl (fun m t => jsMapSet m t.id (mergeActiveRecord jd t)) m
  m.map (fun p => p.2)

/-- `input.lastIndexOf("/")` on a character list. -/
def lastIndexOfChar (c : Char) (l : List Char) : Option Nat :=
  match l.reverse.findIdx? (fun x => x = c) with
  | some i => some (l.length - 1 - i)
  | none => none

/-- The flags test `/^[a-z]*$/i.test(candidateFlags)`. -/
def flagsAlpha (s : String) : Bool :=
  s.toList.all (fun c => ('a' ≤ c && c ≤ 'z') || ('A' ≤ c && c ≤ 'Z'))

/-- `extractPattern` (settings.ts): recognise `/pattern/flags` lines, default
everything else to the raw line with the case-insensitive flag. -/
def extractPattern (input : String) : String × String :=
  let chars := input.toList
  let dflt := (input, "i")
  if strStartsWith input "/" then
    match lastIndexOfChar '/' chars with
    | some lastSlash =>
      if lastSlash > 0 then
        let candidateFlags := String.mk (chars.drop (lastSlash + 1))
        if flagsAlpha candidateFlags then
          let body := String.mk ((chars.take lastSlash).drop 1)
          if body ≠ "" then (body, candidateFlags) else dflt
        else dflt
      else dflt
    | none => dflt
  else dflt

/-- Split a character list at every `'\n'` (JavaScript `split("\n")`
semantics, keeping empty segments). -/
def splitNL : List Char → List (List Char)
  | [] => [[]]
  | '\n' :: rest => [] :: splitNL rest
  | c :: rest =>
    match splitNL rest with
    | [] => [[c]]
    | x :: xs => (c :: x) :: xs

/-- `raw.split(/\r?\n/)`. -/
def splitLinesCRLF (s : String) : List String :=
  ((splitNL s.toList).map String.mk).map
    (fun l => if strEndsWith l "\r" then String.mk l.toList.dropLast else l)

/-- The trimmed non-empty pattern lines prepared by
`compileTitleExcludePatterns` (settings.ts). -/
def preparedPatternLines (raw : String) : List String :=
  ((splitLinesCRLF raw).map jsTrim).filter (fun l => l ≠ "")

/-- `compileTitleExcludePatterns` (settings.ts), parametric in the `RegExp`
compiler (`none` models a thrown `SyntaxError`, which the `try`/`catch`
turns into skipping the line). -/
def compileTitleExcludePatterns {ρ : Type} (compile : String → String → Option ρ)
    (raw : Option String) : List ρ :=
  match raw with
  | none => []
  | some raw =>
    if jsTrim raw = "" then []
    else
      (preparedPatternLines raw).foldl
        (fun compiled line =>
          match compile (extractPattern line).1 (extractPattern line).2 with
          | some r => compiled ++ [r]
          | none => compiled)
        []

theorem assocFind_some_mem {β : Type} {m : List (String × β)} {k : String} {v : β}
    (h : assocFind m k = some v) : (k, v) ∈ m := by
  induction m with
  | nil => simp [assocFind] at h
  | cons p rest ih =>
    rcases p with ⟨k0, v0⟩
    by_cases hp : k0 = k
    · subst hp
      simp [assocFind] at h
      subst h
      exact List.mem_cons_self _ _
    · rw [assocFind] at h
      simp only [if_neg hp] at h
      exact List.mem_cons_of_mem _ (ih h)

theorem assocFind_none_iff {β : Type} {m : List (String × β)} {k : String} :
    assocFind m k = none ↔ ∀ p ∈ m, p.1 ≠ k := by
  induction m with
  | nil => simp [assocFind]
  | cons p rest ih =>
    rw [assocFind]
    by_cases hp : p.1 = k
    · simp [hp]
    · simp only [if_neg hp, ih, List.mem_cons]
      constructor
      · intro h q hq
        rcases hq with hq | hq
        · subst hq; exact hp
        · exact h q hq
      · intro h q hq
        exact h q (Or.inr hq)

theorem assocFind_append_right {β : Type} {m1 m2 : List (String × β)} {k : String}
    (h : assocFind m1 k = none) : assocFind (m1 ++ m2) k = assocFind m2 k := by
  induction m1 with
  | nil => simp
  | cons p rest ih =>
    rw [assocFind] at h
    by_cases hp : p.1 = k
    · simp [hp] at h
    · simp only [if_neg hp] at h
      rw [List.cons_append, assocFind]
      simp only [if_neg hp]
      exact ih h

theorem assocFind_overwrite_self {β : Type} {m : List (String × β)} (k : String) (v : β) :
    (∃ p ∈ m, p.1 = k) →
    assocFind (m.map (fun p => if p.1 = k then (k, v) else p)) k = some v := by
  induction m with
  | nil => simp
  | cons q rest ih =>
    intro hex
    by_cases hq : q.1 = k
    · simp only [List.map_cons, if_pos hq]
      simp [assocFind]
    · simp only [List.map_cons, if_neg hq]
      rw [assocFind]
      simp only [if_neg hq]
      apply ih
      rcases hex with ⟨p, hp, hpk⟩
      rcases List.mem_cons.mp hp with hp | hp
      · subst hp; exact absurd hpk hq
      · exact ⟨p, hp, hpk⟩

theorem assocFind_overwrite_ne {β : Type} {m : List (String × β)} {k k' : String} (v : β)
    (h : k' ≠ k) :
    assocFind (m.map (fun p => if p.1 = k then (k, v) else p)) k' = assocFind m k' := by
  induction m with
  | nil => simp [assocFind]
  | cons q rest ih =>
    by_cases hq : q.1 = k
    · simp only [List.map_cons, if_pos hq]
      rw [assocFind, assocFind]
      have h1 : ¬((k, v).1 = k') := fun hc => h (by simpa using hc.symm)
      have h2 : ¬(q.1 = k') := by rw [hq]; exact fun hc => h hc.symm
      simp only [if_neg h1, if_neg h2]
      exact ih
    · simp only [List.map_cons, if_neg hq]
      rw [assocFind, assocFind]
      by_cases hq' : q.1 = k'
      · simp [hq']
      · simp only [if_neg hq']
        exact ih

theorem assocFind_jsMapSet_self {β : Type} (m : List (String × β)) (k : String) (v : β) :
    assocFind (jsMapSet m k v) k = some v := by
  unfold jsMapSet
  by_cases hq : m.any (fun p => p.1 = k)
  · simp only [if_pos hq]
    simp only [List.any_eq_true, decide_eq_true_eq] at hq
    exact assocFind_overwrite_self k v hq
  · simp only [if_neg hq]
    simp only [List.any_eq_true, decide_eq_true_eq, not_exists, not_and] at hq
    have hnone : assocFind m k = none := assocFind_none_iff.mpr hq
    rw [assocFind_append_right hnone]
    simp [assocFind]

theorem assocFind_jsMapSet_ne {β : Type} (m : List (String × β)) (k k' : String) (v : β)
    (h : k' ≠ k) : assocFind (jsMapSet m k v) k' = assocFind m k' := by
  unfold jsMapSet
  by_cases hq : m.any (fun p => p.1 = k)
  · simp only [if_pos hq]
    exact assocFind_overwrite_ne v h
  · simp only [if_neg hq]
    induction m with
    | nil =>
      simp only [List.nil_append, assocFind]
      have : ¬((k, v).1 = k') := fun hc => h (by simpa using hc.symm)
      simp [assocFind, this]
    | cons p rest ih =>
      rw [List.cons_append, assocFind, assocFind]
      by_cases hp' : p.1 = k'
      · simp [hp']
      · simp only [if_neg hp']
        apply ih
        intro hc
        apply hq
        simp only [List.any_eq_true, decide_eq_true_eq] at hc ⊢
        obtain ⟨p0, hp0, hpk0⟩ := hc
        exact ⟨p0, List.mem_cons_of_mem _ hp0, hpk0⟩

theorem mem_jsMapSet {β : Type} {m : List (String × β)} {k : String} {v : β} {p : String × β}
    (h : p ∈ jsMapSet m k v) : p ∈ m ∨ p = (k, v) := by
  unfold jsMapSet at h
  by_cases hq : m.any (fun p => p.1 = k)
  · simp only [if_pos hq, List.mem_map] at h
    obtain ⟨q, hq0, hq1⟩ := h
    by_cases hk : q.1 = k
    · simp only [if_pos hk] at hq1
      right
      exact hq1.symm
    · simp only [if_neg hk] at hq1
      left
      rw [← hq1]
      exact hq0
  · simp only [if_neg hq, List.mem_append, List.mem_singleton] at h
    exact h

theorem jsMapSet_keys_nodup {β : Type} {m : List (String × β)} {k : String} {v : β}
    (h : (m.map Prod.fst).Nodup) : ((jsMapSet m k v).map Prod.fst).Nodup := by
  unfold jsMapSet
  by_cases hq : m.any (fun p => p.1 = k)
  · simp only [if_pos hq]
    have heq : (m.map (fun p => if p.1 = k then (k, v) else p)).map Prod.fst
        = m.map Prod.fst := by
      rw [List.map_map]
      apply List.map_congr_left
      intro p _
      by_cases hp : p.1 = k
      · simp [hp]
      · simp [hp]
    rw [heq]
    exact h
  · simp only [if_neg hq, List.map_append, List.map_singleton]
    rw [List.nodup_append]
    refine ⟨h, List.nodup_singleton _, ?_⟩
    intro a ha
    simp only [List.mem_singleton]
    intro hb
    subst hb
    simp only [List.mem_map] at ha
    obtain ⟨p, hp, hpk⟩ := ha
    simp only [List.any_eq_true, decide_eq_true_eq, not_exists, not_and] at hq
    exact hq p hp hpk

theorem nodup_filterMap_eq {α β : Type} {l : List α} {f : α → Option β}
    (h : (l.filterMap f).Nodup) {a b : α} {k : β}
    (ha : a ∈ l) (hb : b ∈ l) (hfa : f a = some k) (hfb : f b = some k) : a = b := by
  induction l with
  | nil => simp at ha
  | cons x rest ih =>
    rcases List.mem_cons.mp ha with hax | hax <;> rcases List.mem_cons.mp hb with hbx | hbx
    · rw [hax, hbx]
    · exfalso
      subst hax
      rw [List.filterMap_cons, hfa] at h
      have : k ∈ rest.filterMap f := List.mem_filterMap.mpr ⟨b, hbx, hfb⟩
      exact (List.nodup_cons.mp h).1 this
    · exfalso
      subst hbx
      rw [List.filterMap_cons, hfb] at h
      have : k ∈ rest.filterMap f := List.mem_filterMap.mpr ⟨a, hax, hfa⟩
      exact (List.nodup_cons.mp h).1 this
    · have hrest : (rest.filterMap f).Nodup := by
        rw [List.filterMap_cons] at h
        cases hfx : f x with
        | none => rw [hfx] at h; exact h
        | some y => rw [hfx] at h; exact (List.nodup_cons.mp h).2
      exact ih hrest hax hbx

theorem bbFold_mem {tree : List Block} {m : List (String × Block)} {p : String × Block}
    (h : p ∈ tree.foldl bbStep m) :
    p ∈ m ∨ ∃ b ∈ tree, idTruthy (extractTodoistId b.content) = some p.1 ∧ p.2 = b := by
  induction tree generalizing m with
  | nil => simp at h; exact Or.inl h
  | cons x rest ih =>
    rw [List.foldl_cons] at h
    rcases ih h with hm | ⟨b, hb, hid, hpb⟩
    · unfold bbStep at hm
      cases hx : idTruthy (extractTodoistId x.content) with
      | none => rw [hx] at hm; exact Or.inl hm
      | some id =>
        rw [hx] at hm
        rcases mem_jsMapSet hm with hm | hm
        · exact Or.inl hm
        · right
          refine ⟨x, List.mem_cons_self _ _, ?_, ?_⟩
          · rw [hx, hm]
          · rw [hm]
    · exact Or.inr ⟨b, List.mem_cons_of_mem _ hb, hid, hpb⟩

theorem bbFold_keys_nodup {tree : List Block} {m : List (String × Block)}
    (h : (m.map Prod.fst).Nodup) : ((tree.foldl bbStep m).map Prod.fst).Nodup := by
  induction tree generalizing m with
  | nil => simpa using h
  | cons x rest ih =>
    rw [List.foldl_cons]
    apply ih
    unfold bbStep
    cases hx : idTruthy (extractTodoistId x.content) with
    | none => exact h
    | some id => exact jsMapSet_keys_nodup h

theorem bbFold_find_isSome {tree : List Block} {m : List (String × Block)} {k : String}
    (h : (assocFind m k).isSome) : (assocFind (tree.foldl bbStep m) k).isSome := by
  induction tree generalizing m with
  | nil => simpa using h
  | cons x rest ih =>
    rw [List.foldl_cons]
    apply ih
    unfold bbStep
    cases hx : idTruthy (extractTodoistId x.content) with
    | none => exact h
    | some id =>
      by_cases hk : k = id
      · subst hk
        rw [assocFind_jsMapSet_self]
        simp
      · rw [assocFind_jsMapSet_ne _ _ _ _ hk]
        exact h

theorem bbFold_covered {tree : List Block} {m : List (String × Block)} {b : Block} {k : String}
    (hb : b ∈ tree) (hid : idTruthy (extractTodoistId b.content) = some k) :
    (assocFind (tree.foldl bbStep m) k).isSome := by
  induction tree generalizing m with
  | nil => simp at hb
  | cons x rest ih =>
    rw [List.foldl_cons]
    rcases List.mem_cons.mp hb with hbx | hbx
    · subst hbx
      apply bbFold_find_isSome
      unfold bbStep
      rw [hid, assocFind_jsMapSet_self]
      simp
    · exact ih hbx

/-- The truthy extracted ids of a block list, in order. -/
def pageIds (tree : List Block) : List String :=
  tree.filterMap (fun b => idTruthy (extractTodoistId b.content))

theorem buildBlockMap_mem {tree : List Block} {p : String × Block}
    (h : p ∈ buildBlockMap tree) :
    ∃ b ∈ tree, idTruthy (extractTodoistId b.content) = some p.1 ∧ p.2 = b := by
  rcases bbFold_mem h with hm | hm
  · simp at hm
  · exact hm

theorem buildBlockMap_keys_nodup (tree : List Block) :
    ((buildBlockMap tree).map Prod.fst).Nodup :=
  bbFold_keys_nodup (by simp)

theorem buildBlockMap_find_of_nodup {tree : List Block} {b : Block} {k : String}
    (hnd : (pageIds tree).Nodup) (hb : b ∈ tree)
    (hid : idTruthy (extractTodoistId b.content) = some k) :
    assocFind (buildBlockMap tree) k = some b := by
  have hsome := @bbFold_covered tree [] b k hb hid
  rw [show List.foldl bbStep [] tree = buildBlockMap tree from rfl] at hsome
  cases hfind : assocFind (buildBlockMap tree) k with
  | none => rw [hfind] at hsome; simp at hsome
  | some e =>
    have hmem := assocFind_some_mem hfind
    obtain ⟨b', hb', hid', heb'⟩ := buildBlockMap_mem hmem
    simp only at hid' heb'
    have hbb : b' = b := nodup_filterMap_eq hnd hb' hb hid' hid
    rw [heb', hbb]

theorem buildBlockMap_find_none {tree : List Block} {k : String}
    (h : assocFind (buildBlockMap tree) k = none) :
    ∀ b ∈ tree, idTruthy (extractTodoistId b.content) ≠ some k := by
  intro b hb hid
  have := @bbFold_covered tree [] b k hb hid
  rw [show tree.foldl bbStep [] = buildBlockMap tree from rfl, h] at this
  simp at this

theorem writeStep_next_mono (st : WriteState) (c : List String) :
    st.next ≤ (writeStep st c).next := by
  unfold writeStep
  cases hid : idTruthy (extractTodoistId c) with
  | none => exact Nat.le_refl _
  | some k =>
    dsimp only
    cases hf : assocFind st.bm k with
    | some existing => exact Nat.le_refl _
    | none => exact Nat.le_succ _

theorem writeFold_next_mono (cs : List (List String)) (st : WriteState) :
    st.next ≤ (cs.foldl writeStep st).next := by
  induction cs generalizing st with
  | nil => exact Nat.le_refl _
  | cons c rest ih =>
    rw [List.foldl_cons]
    exact Nat.le_trans (writeStep_next_mono st c) (ih _)

theorem writeStep_uuid_survives {st : WriteState} {c : List String} {b : Block}
    (hb : b ∈ st.page) : ∃ b' ∈ (writeStep st c).page, b'.buuid = b.buuid := by
  unfold writeStep
  cases hid : idTruthy (extractTodoistId c) with
  | none => exact ⟨b, hb, rfl⟩
  | some k =>
    dsimp only
    cases hf : assocFind st.bm k with
    | some existing =>
      dsimp only
      refine ⟨_, List.mem_map_of_mem _ hb, ?_⟩
      by_cases hbe : b.buuid = existing.buuid
      · rw [if_pos hbe]
      · rw [if_neg hbe]
    | none => exact ⟨b, List.mem_append_left _ hb, rfl⟩

theorem writeFold_uuid_survives {cs : List (List String)} {st : WriteState} {b : Block}
    (hb : b ∈ st.page) : ∃ b' ∈ (cs.foldl writeStep st).page, b'.buuid = b.buuid := by
  induction cs generalizing st b with
  | nil => exact ⟨b, hb, rfl⟩
  | cons c rest ih =>
    rw [List.foldl_cons]
    obtain ⟨b', hb', he⟩ := @writeStep_uuid_survives st c b hb
    obtain ⟨b'', hb'', he'⟩ := ih hb'
    exact ⟨b'', hb'', he'.trans he⟩

theorem writeStep_bm_mem {st : WriteState} {c : List String} {p : String × Block}
    (hp : p ∈ (writeStep st c).bm) : p ∈ st.bm ∨ p.2.buuid = st.next := by
  unfold writeStep at hp
  cases hid : idTruthy (extractTodoistId c) with
  | none => rw [hid] at hp; exact Or.inl hp
  | some k =>
    rw [hid] at hp
    dsimp only at hp
    cases hf : assocFind st.bm k with
    | some existing => rw [hf] at hp; exact Or.inl hp
    | none =>
      rw [hf] at hp
      dsimp only at hp
      rcases mem_jsMapSet hp with hp | hp
      · exact Or.inl hp
      · right; rw [hp]

theorem writeFold_bm_mem {cs : List (List String)} {st : WriteState} {p : String × Block}
    (hp : p ∈ (cs.foldl writeStep st).bm) : p ∈ st.bm ∨ st.next ≤ p.2.buuid := by
  induction cs generalizing st with
  | nil => exact Or.inl hp
  | cons c rest ih =>
    rw [List.foldl_cons] at hp
    rcases ih hp with hp' | hp'
    · rcases writeStep_bm_mem hp' with hp'' | hp''
      · exact Or.inl hp''
      · exact Or.inr (Nat.le_of_eq hp''.symm)
    · right
      exact Nat.le_trans (writeStep_next_mono st c) hp'

theorem writeStep_seen_mono {st : WriteState} {c : List String} {k : String}
    (h : k ∈ st.seen) : k ∈ (writeStep st c).seen := by
  unfold writeStep
  cases hid : idTruthy (extractTodoistId c) with
  | none => exact h
  | some k' =>
    dsimp only
    cases hf : assocFind st.bm k' with
    | some existing => exact List.mem_append_left _ h
    | none => exact List.mem_append_left _ h

theorem writeStep_fresh_seen {st : WriteState} {c : List String} {u : Nat}
    (hinv : ∀ p ∈ st.bm, u ≤ p.2.buuid → p.1 ∈ st.seen) :
    ∀ p ∈ (writeStep st c).bm, u ≤ p.2.buuid → p.1 ∈ (writeStep st c).seen := by
  intro p hp hge
  unfold writeStep at hp ⊢
  cases hid : idTruthy (extractTodoistId c) with
  | none =>
    rw [hid] at hp
    exact hinv p hp hge
  | some k =>
    rw [hid] at hp
    dsimp only at hp ⊢
    cases hf : assocFind st.bm k with
    | some existing =>
      rw [hf] at hp
      dsimp only
      exact List.mem_append_left _ (hinv p hp hge)
    | none =>
      rw [hf] at hp
      dsimp only at hp ⊢
      rcases mem_jsMapSet hp with hp' | hp'
      · exact List.mem_append_left _ (hinv p hp' hge)
      · rw [hp']
        exact List.mem_append_right _ (List.mem_singleton_self _)

theorem writeFold_fresh_seen {cs : List (List String)} {st : WriteState} {u : Nat}
    (hinv : ∀ p ∈ st.bm, u ≤ p.2.buuid → p.1 ∈ st.seen) :
    ∀ p ∈ (cs.foldl writeStep st).bm, u ≤ p.2.buuid → p.1 ∈ (cs.foldl writeStep st).seen := by
  induction cs generalizing st with
  | nil => exact hinv
  | cons c rest ih =>
    rw [List.foldl_cons]
    exact ih (writeStep_fresh_seen hinv)

theorem findIdxQ_lt_length {α : Type} {p : α → Bool} {l : List α} {i : Nat}
    (h : l.findIdx? p = some i) : i < l.length := by
  induction l generalizing i with
  | nil => simp [List.findIdx?] at h
  | cons x rest ih =>
    rw [List.findIdx?_cons] at h
    by_cases hx : p x
    · simp [hx] at h
      simp [← h]
    · simp [hx] at h
      obtain ⟨j, hj, hij⟩ := h
      have := ih hj
      simp [← hij]
      omega

theorem findIdxQ_get {α : Type} {p : α → Bool} {l : List α} {i : Nat}
    (h : l.findIdx? p = some i) : ∃ x ∈ l, l[i]? = some x ∧ p x = true := by
  induction l generalizing i with
  | nil => simp [List.findIdx?] at h
  | cons y rest ih =>
    rw [List.findIdx?_cons] at h
    by_cases hy : p y
    · simp [hy] at h
      exact ⟨y, List.mem_cons_self _ _, by simp [← h], hy⟩
    · simp [hy] at h
      obtain ⟨j, hj, hij⟩ := h
      obtain ⟨x, hx, hget, hpx⟩ := ih hj
      refine ⟨x, List.mem_cons_of_mem _ hx, ?_, hpx⟩
      rw [← hij, List.getElem?_cons_succ]
      exact hget

theorem mem_set_self {α : Type} {l : List α} {i : Nat} (h : i < l.length) (a : α) :
    a ∈ l.set i a := by
  induction l generalizing i with
  | nil => simp at h
  | cons x rest ih =>
    cases i with
    | zero => simp
    | succ j =>
      rw [List.set_cons_succ]
      exact List.mem_cons_of_mem _ (ih (by simpa using h) )

theorem mem_insertIdx_self {α : Type} {l : List α} {n : Nat} (h : n ≤ l.length) (a : α) :
    a ∈ l.insertIdx n a := by
  induction l generalizing n with
  | nil =>
    have hn : n = 0 := Nat.le_zero.mp h
    subst hn
    simp
  | cons x rest ih =>
    cases n with
    | zero => simp
    | succ j =>
      rw [List.insertIdx_succ_cons]
      exact List.mem_cons_of_mem _ (ih (by simpa using h))

theorem toList_append (a b : String) : (a ++ b).toList = a.toList ++ b.toList := by
  simp [String.toList]

theorem dueLine_startsCI (v : String) :
    strStartsWithCI ("todoist-due:: " ++ v) "todoist-due::" = true := by
  unfold strStartsWithCI strStartsWith jsToLower
  rw [toList_append]
  rw [List.map_append]
  rw [List.isPrefixOf_iff_prefix]
  refine List.IsPrefix.trans
    (show ("todoist-due::".toList
        <+: "todoist-due:: ".toList.map Char.toLower) by decide)
    (List.prefix_append _ _)

/-- Shape of contents that can live in a page slot with a fresh uuid: either
an id-bearing content or one holding a `todoist-due::` line (everything
`writeStep` ever writes into a created block). -/
def GoodNewContent (c : List String) : Prop :=
  (idTruthy (extractTodoistId c)).isSome = true ∨
    ∃ line ∈ c, strStartsWithCI line "todoist-due::" = true

theorem applyDueFallback_goodNew {c : List String} {d : String}
    (h : (idTruthy (extractTodoistId c)).isSome = true) :
    GoodNewContent (applyDueFallback c d) := by
  unfold applyDueFallback
  by_cases hn : sanitizeDueValue d = ""
  · rw [if_pos hn]
    exact Or.inl h
  · rw [if_neg hn]
    cases c with
    | nil => exact Or.inl h
    | cons l0 rest =>
      dsimp only
      set lines1 : List String :=
        if strContainsSub l0 "[[No due date]]" = true then
          replaceFirstStr l0 "[[No due date]]" ("[[" ++ sanitizeDueValue d ++ "]]") :: rest
        else l0 :: rest with hlines1
      have hlen : 1 ≤ lines1.length := by
        rw [hlines1]
        by_cases hc0 : strContainsSub l0 "[[No due date]]" = true
        · simp [hc0]
        · simp [hc0]
      cases hidx : lines1.findIdx? (fun line => strStartsWithCI line "todoist-due::") with
      | some i =>
        right
        refine ⟨"todoist-due:: " ++ sanitizeDueValue d,
          mem_set_self (findIdxQ_lt_length hidx) _, dueLine_startsCI _⟩
      | none =>
        right
        refine ⟨"todoist-due:: " ++ sanitizeDueValue d, ?_, dueLine_startsCI _⟩
        cases hpidx : lines1.findIdx? (fun line => strStartsWith line "todoist-project::") with
        | some pIdx =>
          exact mem_insertIdx_self (Nat.succ_le_of_lt (findIdxQ_lt_length hpidx)) _
        | none => exact mem_insertIdx_self hlen _

theorem writeStep_goodNew {st : WriteState} {c : List String} {u : Nat}
    (hst : ∀ b ∈ st.page, u ≤ b.buuid → GoodNewContent b.content) :
    ∀ b ∈ (writeStep st c).page, u ≤ b.buuid → GoodNewContent b.content := by
  intro b hb hub
  unfold writeStep at hb
  cases hid : idTruthy (extractTodoistId c) with
  | none =>
    rw [hid] at hb
    exact hst b hb hub
  | some k =>
    rw [hid] at hb
    dsimp only at hb
    cases hf : assocFind st.bm k with
    | some existing =>
      rw [hf] at hb
      dsimp only at hb
      rcases List.mem_map.mp hb with ⟨b0, hb0, hbe⟩
      by_cases h0 : b0.buuid = existing.buuid
      · rw [if_pos h0] at hbe
        rw [← hbe]
        dsimp only
        have hc : (idTruthy (extractTodoistId c)).isSome = true := by rw [hid]; rfl
        cases hdue : extractTodoistDue existing.content with
        | none => exact Or.inl hc
        | some d =>
          dsimp only
          by_cases hcond : d ≠ "" ∧ ¬hasDueProperty c = true
          · rw [if_pos hcond]
            exact applyDueFallback_goodNew hc
          · rw [if_neg hcond]
            exact Or.inl hc
      · rw [if_neg h0] at hbe
        rw [← hbe]
        apply hst b0 hb0
        rw [hbe]
        exact hub
    | none =>
      rw [hf] at hb
      dsimp only at hb
      rcases List.mem_append.mp hb with hb' | hb'
      · exact hst b hb' hub
      · rw [List.mem_singleton.mp hb']
        left
        rw [hid]
        rfl

theorem writeFold_goodNew {cs : List (List String)} {st : WriteState} {u : Nat}
    (hst : ∀ b ∈ st.page, u ≤ b.buuid → GoodNewContent b.content) :
    ∀ b ∈ (cs.foldl writeStep st).page, u ≤ b.buuid → GoodNewContent b.content := by
  induction cs generalizing st with
  | nil => exact hst
  | cons c rest ih =>
    rw [List.foldl_cons]
    exact ih (writeStep_goodNew hst)

theorem nodup_map_eq {α β : Type} {l : List α} {f : α → β}
    (h : (l.map f).Nodup) {a b : α} (ha : a ∈ l) (hb : b ∈ l) (hf : f a = f b) : a = b := by
  have h' : (l.filterMap (fun x => some (f x))).Nodup := by
    rw [show (fun x => some (f x)) = some ∘ f from rfl, List.filterMap_eq_map]
    exact h
  exact nodup_filterMap_eq h' ha hb (congrArg some hf) rfl

theorem buildBlockMap_eq_nil_iff {tree : List Block} :
    buildBlockMap tree = [] ↔ ∀ b ∈ tree, idTruthy (extractTodoistId b.content) = none := by
  constructor
  · intro h b hb
    cases hid : idTruthy (extractTodoistId b.content) with
    | none => rfl
    | some k =>
      exfalso
      have := @bbFold_covered tree [] b k hb hid
      rw [show List.foldl bbStep [] tree = buildBlockMap tree from rfl, h] at this
      simp [assocFind] at this
  · intro h
    unfold buildBlockMap
    induction tree with
    | nil => rfl
    | cons x rest ih =>
      rw [List.foldl_cons]
      unfold bbStep
      rw [h x (List.mem_cons_self _ _)]
      exact ih (fun b hb => h b (List.mem_cons_of_mem _ hb))

/-- Shared concrete fixtures for witnesses and counterexamples. -/
def alFix : StatusAliases := ⟨"act", "done", "del"⟩

/-- A date environment that parses nothing (dates are irrelevant to the
concrete reconciliation scenarios below). -/
def jdNone : JsDate := ⟨fun _ => none, fun _ => ""⟩

/-- A block whose content carries the legacy `todoist-completed::` property
but whose `todoist-status::` resolves to `active`. -/
def histActiveBlock : Block :=
  ⟨0, ["[[No due date]] t", "todoist-id:: 7", "todoist-status:: active",
       "todoist-completed:: [[2025-01-01]]"]⟩

/-- C1, counterexample: the claim reads a `todoist-completed::` property alone
as a preservation marker, but the removal pass of `writeBlocksToPage` deletes
a block that carries the completed property while its `todoist-status::`
resolves to `active`: with no incoming blocks, the page ends empty. -/
theorem C1_counterexample :
    hasCompletedProperty histActiveBlock.content = true ∧
    (writeBlocksToPage alFix [] [histActiveBlock] 10).1 = [] := by
  constructor
  · decide
  · decide

/-- C1, amended: a block is protected from both removal passes exactly under
the code's exemption — its `todoist-status::` resolves to `completed`, or it
carries a `todoist-completed::` property while no `todoist-status::` resolves
(`isExemptContent`).  Such a block survives the per-container removal pass of
`writeBlocksToPage` (its uuid is still on the page) and the cross-container
`cleanupObsoletePages` pass, whatever the current run's task set; and the
cleanup pass only ever maps a page to itself or to its `cleanupPage` image. -/
theorem C1_amended_theorem
    (aliases : StatusAliases) (blocks : List (List String)) (page : List Block) (u : Nat)
    (hu : ∀ b ∈ page, b.buuid < u)
    (hnd : (page.map Block.buuid).Nodup)
    (b : Block) (hb : b ∈ page)
    (hex : isExemptContent aliases b.content = true)
    (pfx : String) (dests current : List String) (pages : List (String × List Block)) :
    (∃ b' ∈ (writeBlocksToPage aliases blocks page u).1, b'.buuid = b.buuid) ∧
    b ∈ cleanupPage aliases current page ∧
    (∀ q ∈ cleanupObsoletePages aliases pfx dests current pages,
      ∃ pg ∈ pages, q.1 = pg.1 ∧ (q.2 = pg.2 ∨ q.2 = cleanupPage aliases current pg.2)) := by
  refine ⟨?_, ?_, ?_⟩
  · unfold writeBlocksToPage
    have hb' := @writeFold_uuid_survives blocks ⟨page, buildBlockMap page, [], u⟩ b hb
    obtain ⟨b', hb'mem, hb'e⟩ := hb'
    set st := blocks.foldl writeStep ⟨page, buildBlockMap page, [], u⟩ with hst
    have hnotrem : ∀ (k : String) (e : Block), (k, e) ∈ st.bm →
        e.buuid = b.buuid → isExemptContent aliases e.content = true := by
      intro k e hke hbe
      rcases writeFold_bm_mem hke with hke' | hke'
      · obtain ⟨b0, hb0, hid0, he0⟩ := buildBlockMap_mem hke'
        simp only at he0
        rw [he0] at hbe
        have heb : b0 = b := nodup_map_eq hnd hb0 hb hbe
        rw [he0, heb]
        exact hex
      · exfalso
        simp only at hke'
        have := hu b hb
        omega
    have hpred : b.buuid ∉ st.bm.filterMap
        (fun p => if p.1 ∉ st.seen ∧ ¬isExemptContent aliases p.2.content = true
                  then some p.2.buuid else none) := by
      intro hmem
      rcases List.mem_filterMap.mp hmem with ⟨⟨k, e⟩, hke, hcond⟩
      by_cases hc : k ∉ st.seen ∧ ¬isExemptContent aliases e.content = true
      · simp only [if_pos hc] at hcond
        have := hnotrem k e hke (Option.some.inj hcond)
        exact hc.2 this
      · simp only [if_neg hc] at hcond
        exact Option.noConfusion hcond
    by_cases hcase : blocks = [] ∧ buildBlockMap page = []
    · rw [if_pos hcase]
      refine ⟨b', List.mem_append_left _ (List.mem_filter.mpr ⟨hb'mem, ?_⟩), hb'e⟩
      rw [hb'e]
      simpa using hpred
    · rw [if_neg hcase]
      refine ⟨b', List.mem_filter.mpr ⟨hb'mem, ?_⟩, hb'e⟩
      rw [hb'e]
      simpa using hpred
  · unfold cleanupPage
    apply List.mem_filter.mpr
    refine ⟨hb, ?_⟩
    simp only [decide_eq_true_eq]
    intro hmem
    rcases List.mem_filterMap.mp hmem with ⟨⟨k, e⟩, hke, hcond⟩
    by_cases hc : k ∉ current ∧ ¬isExemptContent aliases e.content = true
    · simp only [if_pos hc] at hcond
      obtain ⟨b0, hb0, hid0, he0⟩ := buildBlockMap_mem hke
      simp only at he0 hcond
      have hcond' : e.buuid = b.buuid := Option.some.inj hcond
      rw [he0] at hcond'
      have heb : b0 = b := nodup_map_eq hnd hb0 hb hcond'
      rw [he0, heb] at hc
      exact hc.2 hex
    · simp only [if_neg hc] at hcond
      exact Option.noConfusion hcond
  · intro q hq
    rcases List.mem_map.mp hq with ⟨pg, hpg, hfq⟩
    refine ⟨pg, hpg, ?_⟩
    by_cases h1 : ¬strStartsWith pg.1 (pfx ++ "/") = true
    · rw [if_pos h1] at hfq
      rw [← hfq]
      exact ⟨rfl, Or.inl rfl⟩
    · rw [if_neg h1] at hfq
      by_cases h2 : pg.1 ∈ dests
      · rw [if_pos h2] at hfq
        rw [← hfq]
        exact ⟨rfl, Or.inl rfl⟩
      · rw [if_neg h2] at hfq
        by_cases h3 : pg.2 = []
        · rw [if_pos h3] at hfq
          rw [← hfq]
          exact ⟨rfl, Or.inl rfl⟩
        · rw [if_neg h3] at hfq
          rw [← hfq]
          exact ⟨rfl, Or.inr rfl⟩

/-- A historically completed block: status resolves to `completed` via the
configured alias. -/
def histCompletedBlock : Block :=
  ⟨0, ["[[2025-01-01]] t", "todoist-id:: 8", "todoist-status:: done",
       "todoist-completed:: [[2025-01-01]]"]⟩

/-- C1 witness: the amended preservation applied to a concrete completed
block, an empty desired list (the task id is absent from the run) and a
cleanup over a one-page store. -/
theorem C1_amended_witness :
    isExemptContent alFix histCompletedBlock.content = true ∧
    ((∃ b' ∈ (writeBlocksToPage alFix [] [histCompletedBlock] 5).1,
        b'.buuid = histCompletedBlock.buuid) ∧
      histCompletedBlock ∈ cleanupPage alFix [] [histCompletedBlock] ∧
      (∀ q ∈ cleanupObsoletePages alFix "todoist" [] []
          [("todoist/2025-01-01", [histCompletedBlock])],
        ∃ pg ∈ [("todoist/2025-01-01", [histCompletedBlock])],
          q.1 = pg.1 ∧ (q.2 = pg.2 ∨ q.2 = cleanupPage alFix [] pg.2))) :=
  ⟨by decide,
   C1_amended_theorem alFix [] [histCompletedBlock] 5 (by decide) (by decide)
     histCompletedBlock (by decide) (by decide) "todoist" [] []
     [("todoist/2025-01-01", [histCompletedBlock])]⟩

/-- C7: per container, `writeBlocksToPage` appends exactly one placeholder
block (`"No tasks found."`, with a fresh uuid) if and only if the desired
block list is empty and the container has no pre-existing id-bearing
top-level block; otherwise no fresh block carries the placeholder text. -/
theorem C7_theorem
    (aliases : StatusAliases) (blocks : List (List String)) (page : List Block) (u : Nat)
    (hu : ∀ b ∈ page, b.buuid < u) :
    ((writeBlocksToPage aliases blocks page u).1.filter
        (fun b => decide (u ≤ b.buuid) && decide (b.content = [PLACEHOLDER_CONTENT]))).length
      = if blocks = [] ∧ ∀ b ∈ page, idTruthy (extractTodoistId b.content) = none
        then 1 else 0 := by
  unfold writeBlocksToPage
  by_cases hcase : blocks = [] ∧ buildBlockMap page = []
  · rw [if_pos hcase]
    obtain ⟨hbl, hbm⟩ := hcase
    subst hbl
    rw [if_pos ⟨rfl, buildBlockMap_eq_nil_iff.mp hbm⟩]
    simp only [List.foldl_nil, hbm, List.filterMap_nil]
    have hflt : page.filter (fun b => decide (b.buuid ∉ ([] : List Nat))) = page := by
      apply List.filter_eq_self.mpr
      intro b _
      simp
    rw [hflt, List.filter_append]
    have hpf : page.filter
        (fun b => decide (u ≤ b.buuid) && decide (b.content = [PLACEHOLDER_CONTENT])) = [] := by
      apply List.filter_eq_nil_iff.mpr
      intro b hb
      have := hu b hb
      simp only [Bool.and_eq_true, decide_eq_true_eq]
      intro hcon
      omega
    rw [hpf]
    simp
  · rw [if_neg hcase]
    have hifneg : ¬(blocks = [] ∧ ∀ b ∈ page, idTruthy (extractTodoistId b.content) = none) := by
      intro ⟨h1, h2⟩
      exact hcase ⟨h1, buildBlockMap_eq_nil_iff.mpr h2⟩
    rw [if_neg hifneg]
    apply List.length_eq_zero.mpr
    apply List.filter_eq_nil_iff.mpr
    intro b hb
    simp only [Bool.and_eq_true, decide_eq_true_eq]
    intro ⟨hub, hbp⟩
    have hbmem : b ∈ (blocks.foldl writeStep ⟨page, buildBlockMap page, [], u⟩).page :=
      (List.mem_filter.mp hb).1
    have hgood := @writeFold_goodNew blocks ⟨page, buildBlockMap page, [], u⟩ u
      (fun b0 hb0 hu0 => absurd (hu b0 hb0) (by omega)) b hbmem hub
    rcases hgood with hgood | ⟨line, hline, hstart⟩
    · rw [hbp] at hgood
      revert hgood
      decide
    · rw [hbp] at hline
      rcases List.mem_singleton.mp hline with hline'
      rw [hline'] at hstart
      revert hstart
      decide

/-- C7 witness: zero desired blocks and an empty container yield exactly one
placeholder block. -/
theorem C7_witness :
    ((writeBlocksToPage alFix [] [] 0).1.filter
        (fun b => decide (0 ≤ b.buuid) && decide (b.content = [PLACEHOLDER_CONTENT]))).length
      = 1 := by
  have h := C7_theorem alFix [] [] 0 (by decide)
  simpa using h

theorem assocFind_map_nodup {β γ : Type} {pages : List (String × β)} {name : String}
    {blocks : β} (hmem : (name, blocks) ∈ pages) (hnames : (pages.map Prod.fst).Nodup)
    (f : String × β → String × γ) (hf : ∀ p, (f p).1 = p.1) :
    assocFind (pages.map f) name = some (f (name, blocks)).2 := by
  induction pages with
  | nil => simp at hmem
  | cons p rest ih =>
    rcases List.mem_cons.mp hmem with hp | hp
    · rw [← hp]
      rw [List.map_cons, assocFind]
      rw [if_pos (show (f (name, blocks)).1 = name by rw [hf])]
    · have hne : (f p).1 ≠ name := by
        rw [hf]
        intro hc
        rcases List.nodup_cons.mp hnames with ⟨hnotin, _⟩
        apply hnotin
        rw [hc]
        exact List.mem_map.mpr ⟨(name, blocks), hp, rfl⟩
      rw [List.map_cons, assocFind, if_neg hne]
      exact ih hp (List.nodup_cons.mp hnames).2

theorem not_mem_cleanupPage_iff (aliases : StatusAliases) (current : List String)
    (blocks : List Block) (b : Block) (hb : b ∈ blocks) :
    (b ∉ cleanupPage aliases current blocks) ↔
      b.buuid ∈ (buildBlockMap blocks).filterMap
        (fun p => if p.1 ∉ current ∧ ¬isExemptContent aliases p.2.content = true
                  then some p.2.buuid else none) := by
  unfold cleanupPage
  constructor
  · intro h
    by_contra hni
    exact h (List.mem_filter.mpr ⟨hb, by simpa using hni⟩)
  · intro h hin
    have hpr := (List.mem_filter.mp hin).2
    simp only [decide_eq_true_eq] at hpr
    exact hpr h

/-- C3: the cross-container cleanup pass maps every prefix-matching,
non-destination page to its `cleanupPage` image, and there a top-level
id-bearing block is removed if and only if its extracted task id is absent
from the current run's id set and the block carries no completed/historical
exemption; in particular a non-exempt block whose id is still present is
retained. -/
theorem C3_theorem
    (aliases : StatusAliases) (pfx : String) (dests current : List String)
    (pages : List (String × List Block)) (name : String) (blocks : List Block)
    (hmem : (name, blocks) ∈ pages)
    (hnames : (pages.map Prod.fst).Nodup)
    (hpfx : strStartsWith name (pfx ++ "/") = true)
    (hdest : name ∉ dests)
    (hnd : (pageIds blocks).Nodup)
    (hndu : (blocks.map Block.buuid).Nodup) :
    assocFind (cleanupObsoletePages aliases pfx dests current pages) name
      = some (cleanupPage aliases current blocks) ∧
    ∀ b ∈ blocks, ∀ k, idTruthy (extractTodoistId b.content) = some k →
      (b ∉ cleanupPage aliases current blocks ↔
        (k ∉ current ∧ isExemptContent aliases b.content = false)) := by
  constructor
  · unfold cleanupObsoletePages
    have hval := assocFind_map_nodup hmem hnames
      (fun page =>
        if ¬strStartsWith page.1 (pfx ++ "/") = true then page
        else if page.1 ∈ dests then page
        else if page.2 = [] then page
        else (page.1, cleanupPage aliases current page.2))
      (fun p => by
        dsimp only
        by_cases h1 : ¬strStartsWith p.1 (pfx ++ "/") = true
        · rw [if_pos h1]
        · rw [if_neg h1]
          by_cases h2 : p.1 ∈ dests
          · rw [if_pos h2]
          · rw [if_neg h2]
            by_cases h3 : p.2 = []
            · rw [if_pos h3]
            · rw [if_neg h3])
    rw [hval]
    dsimp only
    rw [if_neg (by simpa using hpfx), if_neg hdest]
    by_cases h3 : blocks = []
    · rw [if_pos h3, h3]
      rfl
    · rw [if_neg h3]
  · intro b hb k hk
    rw [not_mem_cleanupPage_iff aliases current blocks b hb]
    constructor
    · intro hbuuid
      rcases List.mem_filterMap.mp hbuuid with ⟨⟨k', e⟩, hke, hcond⟩
      by_cases hc : k' ∉ current ∧ ¬isExemptContent aliases e.content = true
      · simp only [if_pos hc] at hcond
        have hcond' : e.buuid = b.buuid := Option.some.inj hcond
        obtain ⟨b0, hb0, hid0, he0⟩ := buildBlockMap_mem hke
        simp only at he0 hid0
        rw [he0] at hcond' hc
        have heb : b0 = b := nodup_map_eq hndu hb0 hb hcond'
        rw [heb] at hc hid0
        rw [hk] at hid0
        have hkk : k = k' := Option.some.inj hid0
        rw [hkk]
        exact ⟨hc.1, by simpa using hc.2⟩
      · simp only [if_neg hc] at hcond
        exact Option.noConfusion hcond
    · intro ⟨hcur, hexf⟩
      have hfind : assocFind (buildBlockMap blocks) k = some b :=
        buildBlockMap_find_of_nodup hnd hb hk
      have hkb : (k, b) ∈ buildBlockMap blocks := assocFind_some_mem hfind
      apply List.mem_filterMap.mpr
      refine ⟨(k, b), hkb, ?_⟩
      rw [if_pos ⟨hcur, by simp [hexf]⟩]

/-- A stale block (id absent from the run, not completed). -/
def staleBlock : Block :=
  ⟨1, ["[[2025-02-02]] s", "todoist-id:: 9", "todoist-status:: act"]⟩

/-- An active block whose id is still present in the run. -/
def keptActiveBlock : Block :=
  ⟨2, ["[[2025-02-02]] k", "todoist-id:: 5", "todoist-status:: act"]⟩

/-- C3 witness: on a concrete non-destination prefix page, the stale block is
removed and the still-present one is retained. -/
theorem C3_witness :
    staleBlock ∉ cleanupPage alFix ["5"] [staleBlock, keptActiveBlock] ∧
    keptActiveBlock ∈ cleanupPage alFix ["5"] [staleBlock, keptActiveBlock] := by
  have h := C3_theorem alFix "todoist" [] ["5"]
    [("todoist/2025-02-02", [staleBlock, keptActiveBlock])]
    "todoist/2025-02-02" [staleBlock, keptActiveBlock]
    (by decide) (by decide) (by decide) (by decide) (by decide) (by decide)
  constructor
  · exact (h.2 staleBlock (by decide) "9" (by decide)).mpr (by decide)
  · by_contra hc
    have hcon := (h.2 keptActiveBlock (by decide) "5" (by decide)).mp hc
    exact absurd hcon (by decide)

section MapFold

variable {τ : Type} (key : τ → String) (f : τ → TodoistBackupTask)

/-- One insert-with-transform fold step over a JavaScript map. -/
def setFoldStep (m : List (String × TodoistBackupTask)) (t : τ) :
    List (String × TodoistBackupTask) :=
  jsMapSet m (key t) (f t)

theorem setFold_mem {l : List τ} {m : List (String × TodoistBackupTask)}
    {p : String × TodoistBackupTask} (hp : p ∈ l.foldl (setFoldStep key f) m) :
    p ∈ m ∨ ∃ t ∈ l, p = (key t, f t) := by
  induction l generalizing m with
  | nil => exact Or.inl hp
  | cons t0 rest ih =>
    rw [List.foldl_cons] at hp
    rcases ih hp with hp' | ⟨t, ht, hpt⟩
    · unfold setFoldStep at hp'
      rcases mem_jsMapSet hp' with hp'' | hp''
      · exact Or.inl hp''
      · exact Or.inr ⟨t0, List.mem_cons_self _ _, hp''⟩
    · exact Or.inr ⟨t, List.mem_cons_of_mem _ ht, hpt⟩

theorem setFold_keys_nodup {l : List τ} {m : List (String × TodoistBackupTask)}
    (hm : (m.map Prod.fst).Nodup) :
    ((l.foldl (setFoldStep key f) m).map Prod.fst).Nodup := by
  induction l generalizing m with
  | nil => exact hm
  | cons t0 rest ih =>
    rw [List.foldl_cons]
    exact ih (jsMapSet_keys_nodup hm)

theorem setFold_find_absent {l : List τ} {m : List (String × TodoistBackupTask)} {k : String}
    (h : ∀ t ∈ l, key t ≠ k) :
    assocFind (l.foldl (setFoldStep key f) m) k = assocFind m k := by
  induction l generalizing m with
  | nil => rfl
  | cons t0 rest ih =>
    rw [List.foldl_cons]
    rw [ih (fun t ht => h t (List.mem_cons_of_mem _ ht))]
    unfold setFoldStep
    exact assocFind_jsMapSet_ne _ _ _ _ (fun hc => h t0 (List.mem_cons_self _ _) hc.symm)

theorem setFold_find_present {l : List τ} {m : List (String × TodoistBackupTask)} {k : String}
    (h : ∃ t ∈ l, key t = k) :
    ∃ t ∈ l, key t = k ∧
      assocFind (l.foldl (setFoldStep key f) m) k = some (f t) := by
  induction l generalizing m with
  | nil => simp at h
  | cons t0 rest ih =>
    rw [List.foldl_cons]
    by_cases hrest : ∃ t ∈ rest, key t = k
    · obtain ⟨t, ht, hk, hfind⟩ := @ih (setFoldStep key f m t0) hrest
      exact ⟨t, List.mem_cons_of_mem _ ht, hk, hfind⟩
    · push_neg at hrest
      have h0 : key t0 = k := by
        rcases h with ⟨t, ht, hk⟩
        rcases List.mem_cons.mp ht with ht' | ht'
        · rw [← ht']; exact hk
        · exact absurd hk (hrest t ht')
      refine ⟨t0, List.mem_cons_self _ _, h0, ?_⟩
      rw [setFold_find_absent key f hrest]
      unfold setFoldStep
      rw [h0]
      exact assocFind_jsMapSet_self _ _ _

end MapFold

theorem assocFind_of_mem_nodup {β : Type} {m : List (String × β)} {k : String} {v : β}
    (hnd : (m.map Prod.fst).Nodup) (hm : (k, v) ∈ m) : assocFind m k = some v := by
  induction m with
  | nil => simp at hm
  | cons p rest ih =>
    rcases List.mem_cons.mp hm with hp | hp
    · rw [← hp, assocFind, if_pos rfl]
    · have hne : p.1 ≠ k := by
        intro hc
        rcases List.nodup_cons.mp hnd with ⟨hnotin, _⟩
        apply hnotin
        rw [hc]
        exact List.mem_map.mpr ⟨(k, v), hp, rfl⟩
    

      rw [assocFind, if_neg hne]
      exact ih (List.nodup_cons.mp hnd).2 hp

theorem assocFind_isSome_iff_mem_keys {β : Type} {m : List (String × β)} {k : String} :
    (assocFind m k).isSome = true ↔ k ∈ m.map Prod.fst := by
  induction m with
  | nil => simp [assocFind]
  | cons p rest ih =>
    rw [assocFind]
    by_cases hp : p.1 = k
    · simp [hp]
    · simp only [if_neg hp, ih, List.map_cons, List.mem_cons]
      constructor
      · intro h; exact Or.inr h
      · intro h
        rcases h with h | h
        · exact absurd h.symm hp
        · exact h

theorem mergeEntry_id {jd : JsDate} {active : List TodoistTask}
    {completed : List TodoistBackupTask} {p : String × TodoistBackupTask}
    (hp : p ∈ active.foldl (setFoldStep (fun t => t.id) (mergeActiveRecord jd))
      (completed.foldl
        (setFoldStep (fun t => t.id) (mergeCompletedRecord jd)) [])) :
    p.2.id = p.1 := by
  rcases setFold_mem _ _ hp with hp' | ⟨t, _, hpt⟩
  · rcases setFold_mem _ _ hp' with hp'' | ⟨t, _, hpt⟩
    · simp at hp''
    · rw [hpt]; rfl
  · rw [hpt]; rfl

theorem mergeBackupTasks_eq_fold (jd : JsDate) (active : List TodoistTask)
    (completed : List TodoistBackupTask) :
    mergeBackupTasks jd active completed =
      (active.foldl (setFoldStep (fun t => t.id) (mergeActiveRecord jd))
        (completed.foldl
          (setFoldStep (fun t => t.id) (mergeCompletedRecord jd)) [])).map
        (fun p => p.2) := rfl

/-- C4: `mergeBackupTasks` returns one record per distinct `String(id)` (its
ids are pairwise distinct and cover exactly the ids of the two inputs); a
record whose id appears among the active tasks is the active record with
status `active` and the completion fields cleared (the active source wins on
collision); a record whose id appears in no active task is a completed
record: status `completed` and `fallbackDue` derived from its own due
field. -/
theorem C4_theorem (jd : JsDate) (active : List TodoistTask)
    (completed : List TodoistBackupTask) :
    (((mergeBackupTasks jd active completed).map (fun r => r.id)).Nodup) ∧
    (∀ k : String,
      (∃ r ∈ mergeBackupTasks jd active completed, r.id = k) ↔
        ((∃ t ∈ active, t.id = k) ∨ (∃ t ∈ completed, t.id = k))) ∧
    (∀ r ∈ mergeBackupTasks jd active completed,
      ((∃ t ∈ active, t.id = r.id) →
        r.status = some .active ∧ r.completed = false ∧ r.completed_at = none ∧
        r.completed_date = none ∧
        ∃ t ∈ active, t.id = r.id ∧ r = mergeActiveRecord jd t) ∧
      ((∀ t ∈ active, t.id ≠ r.id) →
        r.status = some .completed ∧
        r.fallbackDue = (if formatDue jd r.due = "" then none
                         else some (formatDue jd r.due)) ∧
        ∃ t ∈ completed, t.id = r.id ∧ r = mergeCompletedRecord jd t)) := by
  rw [mergeBackupTasks_eq_fold]
  set m := active.foldl (setFoldStep (fun t => t.id) (mergeActiveRecord jd))
    (completed.foldl (setFoldStep (fun t => t.id) (mergeCompletedRecord jd)) [])
    with hm
  have hkeys : (m.map Prod.fst).Nodup := by
    rw [hm]
    exact setFold_keys_nodup _ _ (setFold_keys_nodup _ _ (by simp))
  have hidkey : ∀ p ∈ m, p.2.id = p.1 := fun p hp => mergeEntry_id (hm ▸ hp)
  have hout_ids : (m.map (fun p => p.2)).map (fun r => r.id) = m.map Prod.fst := by
    rw [List.map_map]
    exact List.map_congr_left (fun p hp => hidkey p hp)
  refine ⟨?_, ?_, ?_⟩
  · rw [hout_ids]
    exact hkeys
  · intro k
    have hmem_iff : (∃ r ∈ m.map (fun p => p.2), r.id = k) ↔ k ∈ m.map Prod.fst := by
      rw [← hout_ids]
      constructor
      · intro ⟨r, hr, hrk⟩
        exact List.mem_map.mpr ⟨r, hr, hrk⟩
      · intro h
        rcases List.mem_map.mp h with ⟨r, hr, hrk⟩
        exact ⟨r, hr, hrk⟩
    rw [hmem_iff, ← assocFind_isSome_iff_mem_keys]
    constructor
    · intro hsome
      by_contra hno
      push_neg at hno
      obtain ⟨hnoact, hnocomp⟩ := hno
      rw [hm] at hsome
      rw [setFold_find_absent _ _ hnoact, setFold_find_absent _ _ hnocomp] at hsome
      simp [assocFind] at hsome
    · intro h
      rcases h with ⟨t, ht, htk⟩ | ⟨t, ht, htk⟩
      · obtain ⟨t', _, _, hfind⟩ :=
          @setFold_find_present TodoistTask (fun t : TodoistTask => t.id)
            (mergeActiveRecord jd) active
            (completed.foldl
              (setFoldStep (fun t => t.id) (mergeCompletedRecord jd)) [])
            k ⟨t, ht, htk⟩
        rw [hm, hfind]
        rfl
      · rw [hm]
        by_cases hact : ∃ t' ∈ active, t'.id = k
        · obtain ⟨t', _, _, hfind⟩ :=
            @setFold_find_present TodoistTask (fun t : TodoistTask => t.id)
              (mergeActiveRecord jd) active
              (completed.foldl
                (setFoldStep (fun t => t.id) (mergeCompletedRecord jd)) [])
              k hact
          rw [hfind]
          rfl
        · push_neg at hact
          rw [setFold_find_absent _ _ hact]
          obtain ⟨t', _, _, hfind⟩ :=
            @setFold_find_present TodoistBackupTask (fun t : TodoistBackupTask => t.id)
              (mergeCompletedRecord jd) completed [] k ⟨t, ht, htk⟩
          rw [hfind]
          rfl
  · intro r hr
    rcases List.mem_map.mp hr with ⟨p, hp, hpr⟩
    have hpid : p.1 = r.id := by rw [← hpr]; exact (hidkey p hp).symm
    have hfind : assocFind m r.id = some r := by
      rw [← hpid]
      have : (p.1, r) ∈ m := by
        rcases p with ⟨k0, r0⟩
        simp only at hpr
        rw [hpr] at hp ⊢
        exact hp
      exact assocFind_of_mem_nodup hkeys this
    constructor
    · intro hex
      obtain ⟨t, ht, htk, hfind'⟩ :=
        @setFold_find_present TodoistTask (fun t : TodoistTask => t.id)
          (mergeActiveRecord jd) active
          (completed.foldl
            (setFoldStep (fun t => t.id) (mergeCompletedRecord jd)) [])
          r.id hex
      rw [hm] at hfind
      rw [hfind'] at hfind
      have hreq : r = mergeActiveRecord jd t := (Option.some.inj hfind).symm
      rw [hreq]
      exact ⟨rfl, rfl, rfl, rfl, t, ht, by rw [← hreq]; exact htk, rfl⟩
    · intro hnone
      rw [hm] at hfind
      rw [setFold_find_absent _ _ hnone] at hfind
      have hmem := assocFind_some_mem hfind
      rcases setFold_mem _ _ hmem with hnil | ⟨t, ht, hpt⟩
      · simp at hnil
      · have hrid : t.id = r.id := (congrArg Prod.fst hpt).symm
        have hreq : r = mergeCompletedRecord jd t := congrArg Prod.snd hpt
        refine ⟨by rw [hreq]; rfl, ?_, t, ht, hrid, hreq⟩
        rw [hreq]
        rfl

/-- Concrete merge fixtures. -/
def wActive : TodoistTask := { id := "1", content := "A" }

/-- A stale completed record colliding with the active task. -/
def wCompleted1 : TodoistBackupTask := { id := "1", content := "old", completed := true }

/-- A completed-only record. -/
def wCompleted2 : TodoistBackupTask := { id := "2", content := "done", completed := true }

/-- C4 witness: on a concrete collision the merged list has distinct ids, the
collision record is the active one (status `active`), and the completed-only
record keeps status `completed`. -/
theorem C4_witness :
    (((mergeBackupTasks jdNone [wActive] [wCompleted1, wCompleted2]).map
        (fun r => r.id)).Nodup) ∧
    (mergeActiveRecord jdNone wActive).status = some .active ∧
    (mergeCompletedRecord jdNone wCompleted2).status = some .completed := by
  have h := C4_theorem jdNone [wActive] [wCompleted1, wCompleted2]
  refine ⟨h.1, ?_, ?_⟩
  · have hr : mergeActiveRecord jdNone wActive ∈
        mergeBackupTasks jdNone [wActive] [wCompleted1, wCompleted2] := by decide
    exact ((h.2.2 _ hr).1 ⟨wActive, List.mem_singleton_self _, by decide⟩).1
  · have hr : mergeCompletedRecord jdNone wCompleted2 ∈
        mergeBackupTasks jdNone [wActive] [wCompleted1, wCompleted2] := by decide
    exact ((h.2.2 _ hr).2 (by decide)).1

theorem isoDateTest_ne_empty {s : String} (h : isoDateTest s = true) : s ≠ "" := by
  intro hc
  subst hc
  simp [isoDateTest] at h

/-- The placement rules as the specification words them (C5), written
independently of `resolveTaskPageName` for comparison: completed tasks whose
completion timestamp (`completed_date ?? completed_at`) renders to a valid
`YYYY-MM-DD` go under that date; else a task with a formatted due date goes
under it; else an ISO-shaped sanitized `fallbackDue` is used; else the
Backlog container. -/
def resolvePageNameSpec (jd : JsDate) (t : TodoistBackupTask) (pfx : String) : String :=
  if t.completed = true ∧
      formatCompletedDate jd (t.completed_date.or t.completed_at) ≠ "" then
    pfx ++ "/" ++ formatCompletedDate jd (t.completed_date.or t.completed_at)
  else if formatDue jd t.due ≠ "" then
    pfx ++ "/" ++ formatDue jd t.due
  else if isoDateTest (safeText (t.fallbackDue.getD "")) = true then
    pfx ++ "/" ++ safeText (t.fallbackDue.getD "")
  else
    pfx ++ "/" ++ BACKLOG_PAGE_SUFFIX

/-- C5: `resolveTaskPageName` implements exactly the four-step priority of
the specification — completion date (for completed tasks with a valid
completion timestamp), else formatted due date, else ISO-shaped stored
fallback due, else Backlog. -/
theorem C5_theorem (jd : JsDate) (t : TodoistBackupTask) (pfx : String) :
    resolveTaskPageName jd t pfx = resolvePageNameSpec jd t pfx := by
  unfold resolveTaskPageName resolvePageNameSpec
  have hfallback :
      (match t.fallbackDue with
        | some fallback =>
          if fallback ≠ "" then
            (if safeText fallback ≠ "" ∧ isoDateTest (safeText fallback) = true then
              pfx ++ "/" ++ safeText fallback
            else pfx ++ "/" ++ BACKLOG_PAGE_SUFFIX)
          else pfx ++ "/" ++ BACKLOG_PAGE_SUFFIX
        | none => pfx ++ "/" ++ BACKLOG_PAGE_SUFFIX) =
      (if isoDateTest (safeText (t.fallbackDue.getD "")) = true then
          pfx ++ "/" ++ safeText (t.fallbackDue.getD "")
        else pfx ++ "/" ++ BACKLOG_PAGE_SUFFIX) := by
    cases hfb : t.fallbackDue with
    | none => simp [safeText, trimChars, collapseWs, collapseWsAux, isoDateTest]
    | some f =>
      simp only [Option.getD_some]
      by_cases hf : f = ""
      · subst hf
        simp [safeText, trimChars, collapseWs, collapseWsAux, isoDateTest]
      · rw [if_pos hf]
        by_cases hiso : isoDateTest (safeText f) = true
        · rw [if_pos ⟨isoDateTest_ne_empty hiso, hiso⟩, if_pos hiso]
        · rw [if_neg (fun hand => hiso hand.2), if_neg hiso]
  by_cases hc : t.completed = true
  · rw [if_pos hc]
    cases ho : t.completed_date.or t.completed_at with
    | none =>
      dsimp only
      rw [show formatCompletedDate jd none = "" from rfl]
      rw [if_neg (show ¬(t.completed = true ∧ ("" : String) ≠ "") by simp)]
      rw [hfallback]
    | some cd =>
      dsimp only
      by_cases hcd : cd = ""
      · subst hcd
        rw [if_neg (show ¬(("" : String) ≠ "") by simp)]
        rw [show formatCompletedDate jd (some "") = "" from rfl]
        rw [if_neg (show ¬(t.completed = true ∧ ("" : String) ≠ "") by simp)]
        dsimp only
        rw [hfallback]
      · rw [if_pos hcd]
        by_cases hn : formatCompletedDate jd (some cd) ≠ ""
        · rw [if_pos hn]
          dsimp only
          rw [if_pos ⟨hc, hn⟩]
        · rw [if_neg hn]
          rw [if_neg (show ¬(t.completed = true ∧ formatCompletedDate jd (some cd) ≠ "")
            from fun hand => hn hand.2)]
          dsimp only
          rw [hfallback]
  · rw [if_neg hc]
    rw [if_neg (show ¬(t.completed = true ∧
        formatCompletedDate jd (t.completed_date.or t.completed_at) ≠ "")
      from fun hand => hc hand.1)]
    dsimp only
    rw [hfallback]

theorem foldl_push_filterMap {α ρ : Type} (f : α → Option ρ) :
    ∀ (l : List α) (acc : List ρ),
      l.foldl (fun acc x => match f x with | some r => acc ++ [r] | none => acc) acc
        = acc ++ l.filterMap f := by
  intro l
  induction l with
  | nil => intro acc; simp
  | cons x rest ih =>
    intro acc
    rw [List.foldl_cons, List.filterMap_cons]
    cases hx : f x with
    | none => rw [ih]
    | some r =>
      rw [ih]
      simp

/-- C9: `compileTitleExcludePatterns` is total (never throws): on a string
setting it returns exactly the successfully compiled patterns of the trimmed
non-empty lines, in order — a line whose pattern fails to compile is skipped
without affecting any other line — and a line not wrapped in `/.../` is
compiled with the case-insensitive default flag. -/
theorem C9_theorem {ρ : Type} (compile : String → String → Option ρ) (raw : String) :
    (compileTitleExcludePatterns compile (some raw) =
      if jsTrim raw = "" then []
      else (preparedPatternLines raw).filterMap
        (fun line => compile (extractPattern line).1 (extractPattern line).2)) ∧
    compileTitleExcludePatterns compile none = ([] : List ρ) ∧
    (∀ line : String, strStartsWith line "/" = false → extractPattern line = (line, "i")) := by
  refine ⟨?_, rfl, ?_⟩
  · unfold compileTitleExcludePatterns
    dsimp only
    by_cases hraw : jsTrim raw = ""
    · rw [if_pos hraw, if_pos hraw]
    · rw [if_neg hraw, if_neg hraw]
      exact foldl_push_filterMap _ (preparedPatternLines raw) []
  · intro line hline
    unfold extractPattern
    rw [if_neg (by simp [hline])]

/-- A compiler stub rejecting exactly the pattern `bad(`. -/
def wCompile : String → String → Option (String × String) :=
  fun s f => if s = "bad(" then none else some (s, f)

/-- C9 witness: a mixed setting — a plain line, a `/Bar/g` line and an
invalid line — compiles to the two valid patterns in order. -/
theorem C9_witness :
    compileTitleExcludePatterns wCompile (some "foo\n/Bar/g\nbad(")
      = [("foo", "i"), ("Bar", "g")] ∧
    extractPattern "foo" = ("foo", "i") := by
  have h := C9_theorem wCompile "foo\n/Bar/g\nbad("
  constructor
  · rw [h.1]
    decide
  · exact h.2.2 "foo" (by decide)

theorem findSomeQ_cons_none {α β : Type} {f : α → Option β} {a : α} {l : List α}
    (h : f a = none) : (a :: l).findSome? f = l.findSome? f := by
  rw [List.findSome?_cons, h]

theorem findSomeQ_cons_some {α β : Type} {f : α → Option β} {a : α} {l : List α} {b : β}
    (h : f a = some b) : (a :: l).findSome? f = some b := by
  rw [List.findSome?_cons, h]

theorem findSomeQ_append_none {α β : Type} {f : α → Option β} {l1 l2 : List α}
    (h : l1.findSome? f = none) : (l1 ++ l2).findSome? f = l2.findSome? f := by
  induction l1 with
  | nil => simp
  | cons a rest ih =>
    rw [List.findSome?_cons] at h
    cases ha : f a with
    | some b => rw [ha] at h; exact Option.noConfusion h
    | none =>
      rw [ha] at h
      rw [List.cons_append, findSomeQ_cons_none ha]
      exact ih h

theorem strAppend_assoc (a b c : String) : (a ++ b) ++ c = a ++ (b ++ c) := by
  cases a; cases b; cases c
  show String.mk _ = String.mk _
  simp [String.append]

theorem lowered_take_append (pre x : String) :
    (((pre ++ x).toList.map Char.toLower).take (pre.toList.map Char.toLower).length)
      = pre.toList.map Char.toLower := by
  rw [toList_append, List.map_append]
  exact List.take_left _ _


/-- Negative property-line test: a line of the shape `pre ++ x` whose lowered
concrete prefix `pre` already disagrees with `key ++ "::"` never matches the
property regex of `key`. -/
theorem propRest_none_pre (key pre x : String)
    (h : ¬((key ++ "::").toList.take (pre.toList.map Char.toLower).length
      <+: pre.toList.map Char.toLower)) :
    propRest key (pre ++ x) = none := by
  unfold propRest strStartsWithCI strStartsWith jsToLower
  have h' : ¬((key ++ "::").toList.isPrefixOf
      (String.mk ((pre ++ x).toList.map Char.toLower)).toList = true) := by
    show ¬((key ++ "::").toList.isPrefixOf ((pre ++ x).toList.map Char.toLower) = true)
    rw [List.isPrefixOf_iff_prefix]
    intro hc
    apply h
    have ht := hc.take (pre.toList.map Char.toLower).length
    rw [lowered_take_append] at ht
    exact ht
  rw [if_neg h']

theorem propRest_some_pre (key pre x rest0 : String)
    (hpre : (key ++ "::").toList <+: pre.toList.map Char.toLower)
    (hsplit : pre.toList.drop (key.toList.length + 2) = rest0.toList)
    (hne : rest0 ≠ "") :
    propRest key (pre ++ x) = some (rest0 ++ x) := by
  have hrl : rest0.toList ≠ [] := by
    intro hc
    apply hne
    cases rest0 with
    | mk d => exact congrArg String.mk (by simpa [String.toList] using hc)
  have hl : key.toList.length + 2 ≤ pre.toList.length := by
    by_contra hcon
    push_neg at hcon
    have : pre.toList.drop (key.toList.length + 2) = [] :=
      List.drop_eq_nil_of_le (Nat.le_of_lt hcon)
    rw [hsplit] at this
    exact hrl this
  unfold propRest strStartsWithCI strStartsWith jsToLower
  have hcond : ((key ++ "::").toList.isPrefixOf
      (String.mk ((pre ++ x).toList.map Char.toLower)).toList = true) := by
    show ((key ++ "::").toList.isPrefixOf ((pre ++ x).toList.map Char.toLower) = true)
    rw [toList_append pre x, List.map_append, List.isPrefixOf_iff_prefix]
    exact List.IsPrefix.trans hpre (List.prefix_append _ _)
  rw [if_pos hcond]
  have hdrop : (pre ++ x).toList.drop (key.length + 2) = rest0.toList ++ x.toList := by
    rw [toList_append pre x, List.drop_append_eq_append_drop]
    have hz : key.length + 2 - pre.toList.length = 0 := Nat.sub_eq_zero_of_le hl
    rw [hz, List.drop_zero]
    show List.drop (key.toList.length + 2) pre.toList ++ x.toList = rest0.toList ++ x.toList
    rw [hsplit]
  rw [hdrop]
  have hmk : String.mk (rest0.toList ++ x.toList) = rest0 ++ x := by
    cases rest0
    cases x
    rfl
  rw [hmk]
  rw [if_neg (by
    intro hc
    apply hne
    have hdata := congrArg String.toList hc
    rw [toList_append] at hdata
    have h0 : rest0.toList = [] := (List.append_eq_nil.mp (by simpa using hdata)).1
    exact absurd h0 hrl)]

/-- `findSome?` over an append succeeds with the first list's result. -/
theorem findSomeQ_append_some {α β : Type} {f : α → Option β} {l1 l2 : List α} {b : β}
    (h : l1.findSome? f = some b) : (l1 ++ l2).findSome? f = some b := by
  induction l1 with
  | nil => exact Option.noConfusion h
  | cons a rest ih =>
    rw [List.findSome?_cons] at h
    cases ha : f a with
    | some b2 =>
      rw [ha] at h
      rw [List.cons_append, findSomeQ_cons_some ha]
      exact h
    | none =>
      rw [ha] at h
      rw [List.cons_append, findSomeQ_cons_none ha]
      exact ih h

/-- `findSome?` over an append fails when both halves fail. -/
theorem findSomeQ_append_none2 {α β : Type} {f : α → Option β} {l1 l2 : List α}
    (h1 : l1.findSome? f = none) (h2 : l2.findSome? f = none) :
    (l1 ++ l2).findSome? f = none := by
  rw [findSomeQ_append_none h1]
  exact h2

/-- A property segment (empty, or a single line with a fixed prefix) yields
nothing for a selector that rejects every line of that prefix. -/
theorem seg_findSome_none {β : Type} {f : String → Option β} {seg : List String} {pre : String}
    (hcase : seg = [] ∨ ∃ x, seg = [pre ++ x]) (hf : ∀ x, f (pre ++ x) = none) :
    seg.findSome? f = none := by
  rcases hcase with h | ⟨x, h⟩ <;> subst h
  · rfl
  · rw [findSomeQ_cons_none (hf x)]
    rfl

/-- The generated title line always begins with `"[["`. -/
theorem firstLine_shape (d r : String) :
    ∃ y, ((if d ≠ "" then "[[" ++ d ++ "]]" else "[[No due date]]") ++ " " ++ r)
      = "[[" ++ y := by
  by_cases h : d ≠ ""
  · refine ⟨d ++ ("]]" ++ (" " ++ r)), ?_⟩
    rw [if_pos h]
    simp only [strAppend_assoc]
  · refine ⟨"No due date]]" ++ (" " ++ r), ?_⟩
    rw [if_neg h]
    have h2 : ("[[No due date]]" : String) = "[[" ++ "No due date]]" := by decide
    rw [h2]
    simp only [strAppend_assoc]

theorem bcFirstLine_shape (jd : JsDate) (t : TodoistBackupTask) :
    ∃ y, bcFirstLine jd t = "[[" ++ y := by
  unfold bcFirstLine
  exact firstLine_shape _ _

/-- An `if`-guarded single-line segment is empty or that line. -/
theorem seg_ite_shape (b : Prop) [Decidable b] (pre v : String) :
    (if b then [pre ++ v] else []) = [] ∨
      ∃ x, (if b then [pre ++ v] else []) = [pre ++ x] := by
  by_cases h : b
  · exact Or.inr ⟨v, by rw [if_pos h]⟩
  · exact Or.inl (by rw [if_neg h])

theorem bcDueProps_eq (jd : JsDate) (t : TodoistBackupTask) :
    bcDueProps jd t =
      (if formatDue jd t.due = "" then []
       else ["todoist-due:: " ++ formatDue jd t.due]) := by
  by_cases h : formatDue jd t.due = ""
  · simp [bcDueProps, resolveDuePropertyValue, h]
  · simp [bcDueProps, resolveDuePropertyValue, h]

theorem bcDueProps_cases (jd : JsDate) (t : TodoistBackupTask) :
    bcDueProps jd t = [] ∨ ∃ v, bcDueProps jd t = ["todoist-due:: " ++ v] := by
  rw [bcDueProps_eq]
  by_cases h : formatDue jd t.due = ""
  · exact Or.inl (by rw [if_pos h])
  · exact Or.inr ⟨formatDue jd t.due, by rw [if_neg h]⟩

theorem bcDescProps_cases (t : TodoistBackupTask) :
    bcDescProps t = [] ∨ ∃ d, bcDescProps t = ["todoist-desc:: " ++ d] := by
  unfold bcDescProps
  exact seg_ite_shape _ _ _

theorem bcLabelProps_cases (t : TodoistBackupTask) (lm : String → Option String) :
    bcLabelProps t lm = [] ∨ ∃ lp, bcLabelProps t lm = ["todoist-labels:: " ++ lp] := by
  unfold bcLabelProps
  exact seg_ite_shape _ _ _

theorem bcCompletedProps_cases (jd : JsDate) (t : TodoistBackupTask) :
    bcCompletedProps jd t = [] ∨
      ∃ cv, bcCompletedProps jd t = ["todoist-completed:: " ++ cv] := by
  unfold bcCompletedProps
  by_cases h : t.completed = true
  · rw [if_pos h]
    exact seg_ite_shape _ _ _
  · rw [if_neg h]
    exact Or.inl rfl

theorem head_of_append_cons {c : Char} {l1 l2 : List Char}
    (h : l1.head? = some c) : (l1 ++ l2).head? = some c := by
  cases l1 with
  | nil => exact Option.noConfusion h
  | cons a tl => exact h

/-- `trim` is the identity on strings bounded by non-whitespace. -/
theorem jsTrim_eq_self (x : String)
    (hh : ∀ c, x.toList.head? = some c → isJsWs c = false)
    (hl : ∀ c, x.toList.getLast? = some c → isJsWs c = false) :
    jsTrim x = x := by
  have h1 : x.toList.dropWhile isJsWs = x.toList := by
    cases hx : x.toList with
    | nil => rfl
    | cons c tl =>
      have hw : isJsWs c = false := hh c (by rw [hx]; rfl)
      rw [List.dropWhile_cons, if_neg (by simp [hw])]
  have h2 : x.toList.reverse.dropWhile isJsWs = x.toList.reverse := by
    cases hr : x.toList.reverse with
    | nil => rfl
    | cons c tl =>
      have hx2 : x.toList = tl.reverse ++ [c] := by
        rw [← List.reverse_reverse x.toList, hr, List.reverse_cons]
      have hlast : x.toList.getLast? = some c := by
        rw [hx2]
        exact List.getLast?_concat _
      have hw : isJsWs c = false := hl c hlast
      rw [List.dropWhile_cons, if_neg (by simp [hw])]
  show String.mk (trimChars x.toList) = x
  unfold trimChars
  rw [h1, h2, List.reverse_reverse]
  cases x
  rfl

/-- A single leading blank is removed by `trim`. -/
theorem jsTrim_space_append_eq (s : String) : jsTrim (" " ++ s) = jsTrim s := by
  show String.mk (trimChars (" " ++ s).toList) = String.mk (trimChars s.toList)
  have h1 : (" " ++ s).toList = ' ' :: s.toList := by
    rw [toList_append]
    rfl
  rw [h1]
  unfold trimChars
  rw [List.dropWhile_cons, if_pos (by decide : isJsWs ' ' = true)]

/-- The whitespace-run flag of `collapseWsAux` only affects a leading
target character, which `dropWhile` removes either way. -/
theorem dropWhile_collapseAux (t : Char) (ht : isJsWs t = true) (l : List Char) :
    List.dropWhile isJsWs (collapseWsAux t true l) =
      List.dropWhile isJsWs (collapseWsAux t false l) := by
  cases l with
  | nil => rfl
  | cons c rest =>
    by_cases hc : isJsWs c = true
    · have e1 : collapseWsAux t true (c :: rest) = collapseWsAux t true rest := by
        simp [collapseWsAux, hc]
      have e2 : collapseWsAux t false (c :: rest) = t :: collapseWsAux t true rest := by
        simp [collapseWsAux, hc]
      rw [e1, e2, List.dropWhile_cons, if_pos ht]
    · have hcf : isJsWs c = false := by
        cases hcc : isJsWs c
        · rfl
        · exact absurd hcc hc
      have e1 : collapseWsAux t true (c :: rest) = c :: collapseWsAux t false rest := by
        simp [collapseWsAux, hcf]
      have e2 : collapseWsAux t false (c :: rest) = c :: collapseWsAux t false rest := by
        simp [collapseWsAux, hcf]
      rw [e1, e2]

/-- A single leading blank is absorbed by `safeText`. -/
theorem safeText_space_append (s : String) : safeText (" " ++ s) = safeText s := by
  show String.mk (trimChars (collapseWs ' ' (" " ++ s).toList)) =
    String.mk (trimChars (collapseWs ' ' s.toList))
  have h1 : (" " ++ s).toList = ' ' :: s.toList := by
    rw [toList_append]
    rfl
  rw [h1]
  show String.mk (trimChars (collapseWsAux ' ' false (' ' :: s.toList))) =
    String.mk (trimChars (collapseWsAux ' ' false s.toList))
  have h2 : collapseWsAux ' ' false (' ' :: s.toList)
      = ' ' :: collapseWsAux ' ' true s.toList := rfl
  rw [h2]
  unfold trimChars
  rw [List.dropWhile_cons, if_pos (by decide : isJsWs ' ' = true)]
  rw [dropWhile_collapseAux ' ' (by decide) s.toList]

theorem sanitizeDueValue_space (s : String) :
    sanitizeDueValue (" " ++ s) = sanitizeDueValue s := by
  unfold sanitizeDueValue
  rw [safeText_space_append]

/-- Trimming the captured id value recovers the markdown link verbatim. -/
theorem bcIdValue_trim (t : TodoistBackupTask) :
    jsTrim (" " ++ bcIdValue t) = bcIdValue t := by
  rw [jsTrim_space_append_eq]
  apply jsTrim_eq_self
  · intro c hc
    have hhead : (bcIdValue t).toList.head? = some '[' := by
      unfold bcIdValue
      rw [toList_append, toList_append, toList_append, toList_append]
      exact head_of_append_cons (head_of_append_cons (head_of_append_cons (by rfl)))
    rw [hhead] at hc
    injection hc with he
    rw [← he]
    decide
  · intro c hc
    have hlastv : (bcIdValue t).toList.getLast? = some ')' := by
      unfold bcIdValue
      rw [toList_append]
      have h3 : (")" : String).toList = [')'] := rfl
      rw [h3]
      exact List.getLast?_concat _
    rw [hlastv] at hc
    injection hc with he
    rw [← he]
    decide

/-- A task fixture for round-trip evaluation. -/
def c6Task : TodoistBackupTask := { id := "123", content := "Write report" }

/-- C6 counterexample: decoding the content generated for a task with id
`"123"` yields the whole markdown link `"[123](https://todoist.com/showTask?id=123)"`
(the capture group of `^todoist-id::\s*(.+)$` spans the full link), not the
task's id `"123"`; so `decode(encode(task))` does not return exactly the id. -/
theorem C6_counterexample :
    extractTodoistId (blockContent jdNone c6Task (fun _ => none) (fun _ => none) alFix)
      = some "[123](https://todoist.com/showTask?id=123)" ∧
    extractTodoistId (blockContent jdNone c6Task (fun _ => none) (fun _ => none) alFix)
      ≠ some "123" := by
  constructor
  · decide
  · decide

/-- C6 (amended): decoding the content generated by `blockContent` recovers
the identifying markdown link `[id](url)` (not the bare id), the task's
canonical status whenever the configured aliases round-trip through
`aliasToStatus`, and exactly the formatted due date (absent when the task has
no formattable due, sanitized otherwise). -/
theorem C6_amended_theorem (jd : JsDate) (t : TodoistBackupTask)
    (pm lm : String → Option String) (al : StatusAliases)
    (hrt : aliasToStatus (jsTrim (statusToAlias (some (bcCanonicalStatus t)) al)) al
      = some (bcCanonicalStatus t)) :
    extractTodoistId (blockContent jd t pm lm al) = some (bcIdValue t) ∧
    extractTodoistStatus al (blockContent jd t pm lm al) = some (bcCanonicalStatus t) ∧
    extractTodoistDue (blockContent jd t pm lm al)
      = (if formatDue jd t.due = "" then none
         else some (sanitizeDueValue (formatDue jd t.due))) := by
  obtain ⟨y, hy⟩ := bcFirstLine_shape jd t
  have hdue := bcDueProps_cases jd t
  have hdesc := bcDescProps_cases t
  have hlab := bcLabelProps_cases t lm
  have hcomp := bcCompletedProps_cases jd t
  have hpairS : List.findSome? (propRest "todoist-status")
      ["todoist-id:: " ++ bcIdValue t, "todoist-project:: #" ++ bcProjectName t pm]
      = none := by
    rw [findSomeQ_cons_none
        (propRest_none_pre "todoist-status" "todoist-id:: " (bcIdValue t) (by decide)),
      findSomeQ_cons_none
        (propRest_none_pre "todoist-status" "todoist-project:: #" (bcProjectName t pm)
          (by decide))]
    rfl
  have hpairD : List.findSome? (propRest "todoist-due")
      ["todoist-id:: " ++ bcIdValue t, "todoist-project:: #" ++ bcProjectName t pm]
      = none := by
    rw [findSomeQ_cons_none
        (propRest_none_pre "todoist-due" "todoist-id:: " (bcIdValue t) (by decide)),
      findSomeQ_cons_none
        (propRest_none_pre "todoist-due" "todoist-project:: #" (bcProjectName t pm)
          (by decide))]
    rfl
  refine ⟨?_, ?_, ?_⟩
  · have hp : extractProp "todoist-id" (blockContent jd t pm lm al)
        = some (" " ++ bcIdValue t) := by
      unfold blockContent extractProp
      rw [hy]
      rw [findSomeQ_cons_none (propRest_none_pre "todoist-id" "[[" y (by decide))]
      exact findSomeQ_append_some (findSomeQ_append_some (findSomeQ_append_some
        (findSomeQ_append_some (findSomeQ_append_some (findSomeQ_cons_some
          (propRest_some_pre "todoist-id" "todoist-id:: " (bcIdValue t) " "
            (by decide) (by decide) (by decide)))))))
    unfold extractTodoistId
    rw [hp]
    show some (jsTrim (" " ++ bcIdValue t)) = some (bcIdValue t)
    rw [bcIdValue_trim]
  · have hp : extractProp "todoist-status" (blockContent jd t pm lm al)
        = some (" " ++ statusToAlias (some (bcCanonicalStatus t)) al) := by
      unfold blockContent extractProp
      rw [hy]
      rw [findSomeQ_cons_none (propRest_none_pre "todoist-status" "[[" y (by decide))]
      rw [findSomeQ_append_none (findSomeQ_append_none2 (findSomeQ_append_none2
        (findSomeQ_append_none2 (findSomeQ_append_none2 hpairS
          (seg_findSome_none hdue
            (fun x => propRest_none_pre "todoist-status" "todoist-due:: " x (by decide))))
          (seg_findSome_none hdesc
            (fun x => propRest_none_pre "todoist-status" "todoist-desc:: " x (by decide))))
          (seg_findSome_none hlab
            (fun x => propRest_none_pre "todoist-status" "todoist-labels:: " x (by decide))))
          (seg_findSome_none hcomp
            (fun x =>
              propRest_none_pre "todoist-status" "todoist-completed:: " x (by decide))))]
      exact findSomeQ_cons_some (propRest_some_pre "todoist-status" "todoist-status:: "
        (statusToAlias (some (bcCanonicalStatus t)) al) " "
        (by decide) (by decide) (by decide))
    unfold extractTodoistStatus
    rw [hp]
    show aliasToStatus (jsTrim (" " ++ statusToAlias (some (bcCanonicalStatus t)) al)) al
      = some (bcCanonicalStatus t)
    rw [jsTrim_space_append_eq]
    exact hrt
  · by_cases hfd : formatDue jd t.due = ""
    · have hnil : bcDueProps jd t = [] := by
        rw [bcDueProps_eq, if_pos hfd]
      have hdueN : List.findSome? (propRest "todoist-due") (bcDueProps jd t) = none := by
        rw [hnil]
        rfl
      have hp : extractProp "todoist-due" (blockContent jd t pm lm al) = none := by
        unfold blockContent extractProp
        rw [hy]
        rw [findSomeQ_cons_none (propRest_none_pre "todoist-due" "[[" y (by decide))]
        exact findSomeQ_append_none2 (findSomeQ_append_none2 (findSomeQ_append_none2
          (findSomeQ_append_none2 (findSomeQ_append_none2 hpairD hdueN)
            (seg_findSome_none hdesc
              (fun x => propRest_none_pre "todoist-due" "todoist-desc:: " x (by decide))))
            (seg_findSome_none hlab
              (fun x => propRest_none_pre "todoist-due" "todoist-labels:: " x (by decide))))
            (seg_findSome_none hcomp
              (fun x => propRest_none_pre "todoist-due" "todoist-completed:: " x (by decide))))
          (by
            rw [findSomeQ_cons_none (propRest_none_pre "todoist-due" "todoist-status:: "
              (statusToAlias (some (bcCanonicalStatus t)) al) (by decide))]
            rfl)
      unfold extractTodoistDue
      rw [hp, if_pos hfd]
      rfl
    · have hv : bcDueProps jd t = ["todoist-due:: " ++ formatDue jd t.due] := by
        rw [bcDueProps_eq, if_neg hfd]
      have hp : extractProp "todoist-due" (blockContent jd t pm lm al)
          = some (" " ++ formatDue jd t.due) := by
        unfold blockContent extractProp
        rw [hy]
        rw [findSomeQ_cons_none (propRest_none_pre "todoist-due" "[[" y (by decide))]
        exact findSomeQ_append_some (findSomeQ_append_some (findSomeQ_append_some
          (findSomeQ_append_some (by
            rw [findSomeQ_append_none hpairD, hv]
            exact findSomeQ_cons_some (propRest_some_pre "todoist-due" "todoist-due:: "
              (formatDue jd t.due) " " (by decide) (by decide) (by decide))))))
      unfold extractTodoistDue
      rw [hp, if_neg hfd]
      show some (sanitizeDueValue (" " ++ formatDue jd t.due))
        = some (sanitizeDueValue (formatDue jd t.due))
      rw [sanitizeDueValue_space]

/-- C6 amended witness: concrete round-trip for the fixture task under the
fixture aliases. -/
theorem C6_amended_witness :
    aliasToStatus (jsTrim (statusToAlias (some (bcCanonicalStatus c6Task)) alFix)) alFix
      = some (bcCanonicalStatus c6Task) ∧
    (extractTodoistId (blockContent jdNone c6Task (fun _ => none) (fun _ => none) alFix)
        = some (bcIdValue c6Task) ∧
      extractTodoistStatus alFix (blockContent jdNone c6Task (fun _ => none) (fun _ => none) alFix)
        = some (bcCanonicalStatus c6Task) ∧
      extractTodoistDue (blockContent jdNone c6Task (fun _ => none) (fun _ => none) alFix)
        = (if formatDue jdNone c6Task.due = "" then none
           else some (sanitizeDueValue (formatDue jdNone c6Task.due)))) :=
  ⟨by decide,
    C6_amended_theorem jdNone c6Task (fun _ => none) (fun _ => none) alFix (by decide)⟩

/-- When the sanitized fallback value is non-empty, `applyDueFallback` always
leaves the block with a `todoist-due::` line carrying that value (overwriting
an existing due line in place, or inserting after the project line / at index
one). -/
theorem applyDueFallback_mem_dueLine (l0 : String) (rest : List String) (d : String)
    (hsan : ¬sanitizeDueValue d = "") :
    ("todoist-due:: " ++ sanitizeDueValue d) ∈ applyDueFallback (l0 :: rest) d := by
  unfold applyDueFallback
  rw [if_neg hsan]
  dsimp only
  generalize hl1 : (if strContainsSub l0 "[[No due date]]" then
      replaceFirstStr l0 "[[No due date]]" ("[[" ++ sanitizeDueValue d ++ "]]") :: rest
    else l0 :: rest) = lines1
  have hne : lines1 ≠ [] := by
    rw [← hl1]
    by_cases hc : strContainsSub l0 "[[No due date]]" = true
    · rw [if_pos hc]
      exact List.cons_ne_nil _ _
    · rw [if_neg hc]
      exact List.cons_ne_nil _ _
  cases hfi : lines1.findIdx? (fun line => strStartsWithCI line "todoist-due::") with
  | some i =>
    dsimp only
    exact mem_set_self (findIdxQ_lt_length hfi) _
  | none =>
    dsimp only
    cases hfp : lines1.findIdx? (fun line => strStartsWith line "todoist-project::") with
    | some pidx =>
      dsimp only
      exact mem_insertIdx_self (Nat.succ_le_of_lt (findIdxQ_lt_length hfp)) _
    | none =>
      dsimp only
      exact mem_insertIdx_self (List.length_pos.mpr hne) _

/-- `findSome?` succeeds when some member succeeds. -/
theorem findSomeQ_isSome_of_mem {α β : Type} {f : α → Option β} {l : List α} {a : α} {b : β}
    (hm : a ∈ l) (hf : f a = some b) : (l.findSome? f).isSome = true := by
  induction l with
  | nil => cases hm
  | cons c tl ih =>
    cases hc : f c with
    | some b2 =>
      rw [findSomeQ_cons_some hc]
      rfl
    | none =>
      rw [findSomeQ_cons_none hc]
      rcases List.mem_cons.mp hm with he | ht
      · subst he
        rw [hc] at hf
        exact Option.noConfusion hf
      · exact ih ht

/-- Fixture: freshly computed content without a due line. -/
def c2NewContent : List String :=
  ["[[No due date]] T", "todoist-id:: [7](u)", "todoist-project:: #Inbox",
   "todoist-status:: act"]

/-- Fixture: stored block whose due value re-sanitizes to the empty string. -/
def c2PoisonBlock : Block :=
  ⟨0, ["[[2024-01-01]] T", "todoist-id:: [7](u)", "todoist-due:: [[ [[]] ]]"]⟩

/-- Fixture: stored block with a well-formed due property. -/
def c2GoodBlock : Block :=
  ⟨0, ["[[2024-01-01]] T", "todoist-id:: [7](u)", "todoist-due:: 2024-01-01"]⟩

/-- C2 counterexample: the stored block's `todoist-due::` property extracts to
the non-empty value `"[[]]"`, the new content lacks a due line, yet
`writeBlocksToPage` writes the new content unchanged — the due property
regresses from non-empty to absent, because `applyDueFallback` re-sanitizes
the recovered value (`sanitizeDueValue "[[]]" = ""`) and silently skips the
patch. -/
theorem C2_counterexample :
    extractTodoistDue c2PoisonBlock.content = some "[[]]" ∧
    ("[[]]" : String) ≠ "" ∧
    hasDueProperty c2NewContent = false ∧
    (writeBlocksToPage alFix [c2NewContent] [c2PoisonBlock] 1).1
      = [⟨0, c2NewContent⟩] ∧
    extractTodoistDue c2NewContent = none := by
  refine ⟨by decide, by decide, by decide, by decide, by decide⟩

/-- C2 (amended): when the recovered due value survives re-sanitization
(`sanitizeDueValue d ≠ ""`), the loop body of `writeBlocksToPage` writes
`applyDueFallback` of the new content for the matched block, and that patched
content carries the line `todoist-due:: <sanitized value>`, so its extracted
due property is present. -/
theorem C2_amended_theorem (st : WriteState) (existing : Block) (nc : List String)
    (d id : String)
    (hfind : assocFind st.bm id = some existing)
    (hidnc : extractTodoistId nc = some id) (hidne : ¬id = "")
    (hd : extractTodoistDue existing.content = some d) (hdne : ¬d = "")
    (hnodue : hasDueProperty nc = false)
    (hsan : ¬sanitizeDueValue d = "") :
    (writeStep st nc).page = st.page.map
      (fun b => if b.buuid = existing.buuid
        then { b with content := applyDueFallback nc d } else b) ∧
    ("todoist-due:: " ++ sanitizeDueValue d) ∈ applyDueFallback nc d ∧
    (extractTodoistDue (applyDueFallback nc d)).isSome = true := by
  obtain ⟨l0, rest, hnc⟩ : ∃ l0 rest, nc = l0 :: rest := by
    cases nc with
    | nil => exact Option.noConfusion hidnc
    | cons a l => exact ⟨a, l, rfl⟩
  have hidt : idTruthy (extractTodoistId nc) = some id := by
    rw [hidnc]
    show (if id = "" then none else some id) = some id
    rw [if_neg hidne]
  have hmem : ("todoist-due:: " ++ sanitizeDueValue d) ∈ applyDueFallback nc d := by
    rw [hnc]
    exact applyDueFallback_mem_dueLine l0 rest d hsan
  refine ⟨?_, hmem, ?_⟩
  · unfold writeStep
    rw [hidt]
    dsimp only
    rw [hfind]
    dsimp only
    rw [hd]
    dsimp only
    rw [if_pos ⟨hdne, fun hc => by rw [hnodue] at hc; exact Bool.noConfusion hc⟩]
  · have hs := findSomeQ_isSome_of_mem hmem
      (propRest_some_pre "todoist-due" "todoist-due:: " (sanitizeDueValue d) " "
        (by decide) (by decide) (by decide))
    have hs2 : (extractProp "todoist-due" (applyDueFallback nc d)).isSome = true := hs
    show ((extractProp "todoist-due" (applyDueFallback nc d)).map sanitizeDueValue).isSome
      = true
    cases he : extractProp "todoist-due" (applyDueFallback nc d) with
    | none =>
      rw [he] at hs2
      exact Bool.noConfusion hs2
    | some v => rfl

/-- C2 amended witness: the patch applied at concrete inputs. -/
theorem C2_amended_witness :
    (writeStep ⟨[c2GoodBlock], [("[7](u)", c2GoodBlock)], [], 5⟩ c2NewContent).page
      = [c2GoodBlock].map (fun b => if b.buuid = c2GoodBlock.buuid
          then { b with content := applyDueFallback c2NewContent "2024-01-01" } else b) ∧
    ("todoist-due:: " ++ sanitizeDueValue "2024-01-01")
        ∈ applyDueFallback c2NewContent "2024-01-01" ∧
    (extractTodoistDue (applyDueFallback c2NewContent "2024-01-01")).isSome = true :=
  C2_amended_theorem ⟨[c2GoodBlock], [("[7](u)", c2GoodBlock)], [], 5⟩ c2GoodBlock
    c2NewContent "2024-01-01" "[7](u)" (by decide) (by decide) (by decide) (by decide)
    (by decide) (by decide) (by decide)

/-- Replacing a position that holds (and receives) a line the selector
rejects does not change `findSome?`. -/
theorem findSomeQ_set_none {α β : Type} {f : α → Option β} {l : List α} {i : Nat} {a : α}
    (ha : f a = none) (hold : ∀ x, l[i]? = some x → f x = none) :
    (l.set i a).findSome? f = l.findSome? f := by
  induction l generalizing i with
  | nil => rfl
  | cons c tl ih =>
    cases i with
    | zero =>
      have hc : f c = none := hold c (by simp)
      show (a :: tl).findSome? f = (c :: tl).findSome? f
      rw [findSomeQ_cons_none ha, findSomeQ_cons_none hc]
    | succ j =>
      show (c :: tl.set j a).findSome? f = (c :: tl).findSome? f
      cases hc : f c with
      | some b => rw [findSomeQ_cons_some hc, findSomeQ_cons_some hc]
      | none =>
        rw [findSomeQ_cons_none hc, findSomeQ_cons_none hc]
        exact ih (fun x hx => hold x (by rw [List.getElem?_cons_succ]; exact hx))

/-- Inserting a line the selector rejects does not change `findSome?`. -/
theorem findSomeQ_insertIdx_none {α β : Type} {f : α → Option β} {l : List α} {n : Nat}
    {a : α} (ha : f a = none) :
    (l.insertIdx n a).findSome? f = l.findSome? f := by
  induction l generalizing n with
  | nil =>
    cases n with
    | zero =>
      show ([a]).findSome? f = ([] : List α).findSome? f
      rw [findSomeQ_cons_none ha]
    | succ j => rfl
  | cons c tl ih =>
    cases n with
    | zero =>
      show (a :: c :: tl).findSome? f = (c :: tl).findSome? f
      rw [findSomeQ_cons_none ha]
    | succ j =>
      show (c :: tl.insertIdx j a).findSome? f = (c :: tl).findSome? f
      cases hc : f c with
      | some b => rw [findSomeQ_cons_some hc, findSomeQ_cons_some hc]
      | none =>
        rw [findSomeQ_cons_none hc, findSomeQ_cons_none hc]
        exact ih

/-- One step of `replaceFirstChars` on a cons cell. -/
theorem replaceFirstChars_cons (pat rep : List Char) (c : Char) (rest : List Char) :
    replaceFirstChars pat rep (c :: rest)
      = if pat.isPrefixOf (c :: rest) = true then rep ++ (c :: rest).drop pat.length
        else c :: replaceFirstChars pat rep rest := by
  conv_lhs => rw [replaceFirstChars]

/-- Replacing the first `[[No due date]]` occurrence by a `[[...]]` wrapper
keeps the two opening brackets at the head of the character list. -/
theorem replaceFirstChars_open (pat : List Char) (norm : String) (l : List Char) :
    ∃ tail, replaceFirstChars pat ("[[" ++ norm ++ "]]").toList ('[' :: '[' :: l)
      = '[' :: '[' :: tail := by
  have hrep : ("[[" ++ norm ++ "]]").toList
      = '[' :: '[' :: (norm.toList ++ "]]".toList) := by
    rw [toList_append, toList_append]
    rfl
  rw [replaceFirstChars_cons]
  by_cases h1 : pat.isPrefixOf ('[' :: '[' :: l) = true
  · rw [if_pos h1, hrep]
    exact ⟨(norm.toList ++ "]]".toList) ++ ('[' :: '[' :: l).drop pat.length, rfl⟩
  · rw [if_neg h1, replaceFirstChars_cons]
    by_cases h2 : pat.isPrefixOf ('[' :: l) = true
    · rw [if_pos h2, hrep]
      exact ⟨'[' :: ((norm.toList ++ "]]".toList) ++ ('[' :: l).drop pat.length), rfl⟩
    · rw [if_neg h2]
      exact ⟨replaceFirstChars pat ("[[" ++ norm ++ "]]").toList l, rfl⟩

/-- The title-line replacement of `applyDueFallback` keeps the line of the
shape `"[[" ++ _`. -/
theorem replaceFirstStr_open (y norm : String) :
    ∃ z, replaceFirstStr ("[[" ++ y) "[[No due date]]" ("[[" ++ norm ++ "]]")
      = "[[" ++ z := by
  unfold replaceFirstStr
  have hl : ("[[" ++ y).toList = '[' :: '[' :: y.toList := by
    rw [toList_append]
    rfl
  rw [hl]
  obtain ⟨tail, ht⟩ := replaceFirstChars_open ("[[No due date]]".toList) norm y.toList
  rw [ht]
  exact ⟨String.mk tail, rfl⟩

/-- A line that matches the due-property prefix never matches the id
property. -/
theorem propRest_id_none_of_due (x : String)
    (h : strStartsWithCI x "todoist-due::" = true) :
    propRest "todoist-id" x = none := by
  unfold propRest
  rw [if_neg ?hneg]
  case hneg =>
    intro hc
    unfold strStartsWithCI strStartsWith jsToLower at h hc
    rw [List.isPrefixOf_iff_prefix] at h hc
    rcases List.prefix_or_prefix_of_prefix hc h with h1 | h2
    · revert h1
      decide
    · revert h2
      decide

/-- `applyDueFallback` never changes the extracted id of content whose first
line begins with `"[["`: the title replacement keeps the `"[["` prefix, the
due line it sets or inserts matches no id property, and a due line it
overwrites matched none either. -/
theorem extractTodoistId_applyDueFallback (y : String) (rest : List String) (d : String) :
    extractTodoistId (applyDueFallback (("[[" ++ y) :: rest) d)
      = extractTodoistId (("[[" ++ y) :: rest) := by
  unfold applyDueFallback
  by_cases hs : sanitizeDueValue d = ""
  · rw [if_pos hs]
  · rw [if_neg hs]
    dsimp only
    have hopen : ∃ z, (if strContainsSub ("[[" ++ y) "[[No due date]]" then
        replaceFirstStr ("[[" ++ y) "[[No due date]]"
          ("[[" ++ sanitizeDueValue d ++ "]]") :: rest
      else ("[[" ++ y) :: rest) = ("[[" ++ z) :: rest := by
      by_cases hc : strContainsSub ("[[" ++ y) "[[No due date]]" = true
      · rw [if_pos hc]
        obtain ⟨z, hz⟩ := replaceFirstStr_open y (sanitizeDueValue d)
        exact ⟨z, by rw [hz]⟩
      · rw [if_neg hc]
        exact ⟨y, rfl⟩
    obtain ⟨z, hl1⟩ := hopen
    rw [hl1]
    cases hfi : (("[[" ++ z) :: rest).findIdx?
        (fun line => strStartsWithCI line "todoist-due::") with
    | some i =>
      dsimp only
      unfold extractTodoistId extractProp
      rw [findSomeQ_set_none
        (propRest_none_pre "todoist-id" "todoist-due:: " (sanitizeDueValue d) (by decide))
        (fun x hx => by
          obtain ⟨x0, hx0mem, hx0get, hx0p⟩ := findIdxQ_get hfi
          injection hx0get.symm.trans hx with he
          rw [← he]
          exact propRest_id_none_of_due x0 hx0p)]
      rw [findSomeQ_cons_none (propRest_none_pre "todoist-id" "[[" z (by decide)),
        findSomeQ_cons_none (propRest_none_pre "todoist-id" "[[" y (by decide))]
    | none =>
      dsimp only
      unfold extractTodoistId extractProp
      rw [findSomeQ_insertIdx_none
        (propRest_none_pre "todoist-id" "todoist-due:: " (sanitizeDueValue d) (by decide))]
      rw [findSomeQ_cons_none (propRest_none_pre "todoist-id" "[[" z (by decide)),
        findSomeQ_cons_none (propRest_none_pre "todoist-id" "[[" y (by decide))]

theorem idTruthy_eq_some {o : Option String} {k : String} (h : idTruthy o = some k) :
    o = some k ∧ ¬k = "" := by
  cases o with
  | none => exact Option.noConfusion h
  | some s =>
    unfold idTruthy at h
    dsimp only at h
    by_cases hs : s = ""
    · rw [if_pos hs] at h
      exact Option.noConfusion h
    · rw [if_neg hs] at h
      injection h with he
      subst he
      exact ⟨rfl, hs⟩

theorem jsMapSet_absent {β : Type} {m : List (String × β)} {k : String} (v : β)
    (h : assocFind m k = none) : jsMapSet m k v = m ++ [(k, v)] := by
  unfold jsMapSet
  rw [if_neg ?hneg]
  case hneg =>
    intro hc
    obtain ⟨p, hp, hpk⟩ := List.any_eq_true.mp hc
    exact (assocFind_none_iff.mp h p hp) (of_decide_eq_true hpk)

theorem assocFind_append_left {β : Type} {m1 m2 : List (String × β)} {k : String} {v : β}
    (h : assocFind m1 k = some v) : assocFind (m1 ++ m2) k = some v := by
  induction m1 with
  | nil => exact Option.noConfusion h
  | cons p rest ih =>
    show assocFind (p :: (rest ++ m2)) k = some v
    unfold assocFind at h ⊢
    by_cases hp : p.1 = k
    · rw [if_pos hp] at h ⊢
      exact h
    · rw [if_neg hp] at h ⊢
      exact ih h

theorem filterMap_congr_mem {α β : Type} {l : List α} {f g : α → Option β}
    (h : ∀ x ∈ l, f x = g x) : l.filterMap f = l.filterMap g := by
  induction l with
  | nil => rfl
  | cons a tl ih =>
    rw [List.filterMap_cons, List.filterMap_cons, h a (List.mem_cons_self a tl),
      ih (fun x hx => h x (List.mem_cons_of_mem a hx))]

theorem map_congr_mem {α β : Type} {l : List α} {f g : α → β}
    (h : ∀ x ∈ l, f x = g x) : l.map f = l.map g := by
  induction l with
  | nil => rfl
  | cons a tl ih =>
    rw [List.map_cons, List.map_cons, h a (List.mem_cons_self a tl),
      ih (fun x hx => h x (List.mem_cons_of_mem a hx))]

theorem pageIds_append (l1 l2 : List Block) :
    pageIds (l1 ++ l2) = pageIds l1 ++ pageIds l2 := by
  unfold pageIds
  exact List.filterMap_append _ _ _

theorem pageIds_sublist {l1 l2 : List Block} (h : l1.Sublist l2) :
    (pageIds l1).Sublist (pageIds l2) := by
  unfold pageIds
  exact h.filterMap _

theorem pageIds_placeholder_append (l : List Block) (u : Nat) :
    pageIds (l ++ [⟨u, [PLACEHOLDER_CONTENT]⟩]) = pageIds l := by
  rw [pageIds_append]
  have hnone : idTruthy (extractTodoistId [PLACEHOLDER_CONTENT]) = none := by decide
  have h : pageIds [⟨u, [PLACEHOLDER_CONTENT]⟩] = [] := by
    unfold pageIds
    simp [hnone]
  rw [h, List.append_nil]

/-- The loop invariant of `writeBlocksToPage`'s main pass: page uuids are
distinct and below the fresh supply, the map's keys and value uuids are
distinct and below the supply, every mapped entry points (by uuid) at a page
block carrying its key as id, the page's extracted ids are distinct, and
every page id is a key of the map. -/
structure WriteInv (st : WriteState) : Prop where
  buuidNodup : (st.page.map (fun b => b.buuid)).Nodup
  buuidLt : ∀ b ∈ st.page, b.buuid < st.next
  keysNodup : (st.bm.map Prod.fst).Nodup
  findPage : ∀ k eb, assocFind st.bm k = some eb →
    ∃ b ∈ st.page, b.buuid = eb.buuid ∧ idTruthy (extractTodoistId b.content) = some k
  valuesNodup : (st.bm.map (fun p => p.2.buuid)).Nodup
  idsNodup : (pageIds st.page).Nodup
  idsCovered : ∀ k, k ∈ pageIds st.page → (assocFind st.bm k).isSome = true
  bmLt : ∀ p ∈ st.bm, p.2.buuid < st.next

/-- The update branch of `writeStep`, with the written content isolated. -/
theorem writeStep_update_char {st : WriteState} {c : List String} {k : String}
    {existing : Block}
    (hid : idTruthy (extractTodoistId c) = some k)
    (hf : assocFind st.bm k = some existing) :
    ∃ f0, (f0 = c ∨ ∃ d, f0 = applyDueFallback c d) ∧
      writeStep st c = { st with
        page := st.page.map (fun b => if b.buuid = existing.buuid
          then { b with content := f0 } else b),
        seen := st.seen ++ [k] } := by
  unfold writeStep
  rw [hid]
  dsimp only
  rw [hf]
  dsimp only
  refine ⟨_, ?_, rfl⟩
  cases extractTodoistDue existing.content with
  | none => exact Or.inl rfl
  | some ed =>
    dsimp only
    by_cases hcnd : ed ≠ "" ∧ ¬(hasDueProperty c = true)
    · exact Or.inr ⟨ed, by rw [if_pos hcnd]⟩
    · exact Or.inl (by rw [if_neg hcnd])

/-- The append branch of `writeStep`. -/
theorem writeStep_append_char {st : WriteState} {c : List String} {k : String}
    (hid : idTruthy (extractTodoistId c) = some k)
    (hf : assocFind st.bm k = none) :
    writeStep st c =
      { page := st.page ++ [⟨st.next, c⟩],
        bm := jsMapSet st.bm k ⟨st.next, c⟩,
        seen := st.seen ++ [k],
        next := st.next + 1 } := by
  unfold writeStep
  rw [hid]
  dsimp only
  rw [hf]

theorem assocFind_singleton {β : Type} (k k' : String) (v : β) :
    assocFind [(k, v)] k' = if k = k' then some v else none := by
  unfold assocFind
  rfl

/-- One loop iteration preserves the invariant, provided the desired content
opens with a `"[["` title line (as every `blockContent` output does). -/
theorem writeStep_inv {st : WriteState} {c : List String}
    (hshape : ∃ y rest, c = ("[[" ++ y) :: rest)
    (hinv : WriteInv st) : WriteInv (writeStep st c) := by
  cases hid : idTruthy (extractTodoistId c) with
  | none =>
    unfold writeStep
    rw [hid]
    exact hinv
  | some k =>
    cases hf : assocFind st.bm k with
    | some existing =>
      obtain ⟨f0, hf0, heq⟩ := writeStep_update_char hid hf
      obtain ⟨y, rest, hcy⟩ := hshape
      have hf0id : idTruthy (extractTodoistId f0) = some k := by
        rcases hf0 with rfl | ⟨d, rfl⟩
        · exact hid
        · rw [hcy, extractTodoistId_applyDueFallback, ← hcy]
          exact hid
      rw [heq]
      obtain ⟨b0, hb0mem, hb0uuid, hb0id⟩ := hinv.findPage k existing hf
      have hgbuuid : ∀ b : Block, ((if b.buuid = existing.buuid
          then { b with content := f0 } else b) : Block).buuid = b.buuid := by
        intro b
        by_cases hbb : b.buuid = existing.buuid
        · rw [if_pos hbb]
        · rw [if_neg hbb]
      have hmapbuuid : ((st.page.map (fun b => if b.buuid = existing.buuid
          then { b with content := f0 } else b)).map (fun b => b.buuid))
          = st.page.map (fun b => b.buuid) := by
        rw [List.map_map]
        exact map_congr_mem (fun b _ => hgbuuid b)
      have hpageIdsEq : pageIds (st.page.map (fun b => if b.buuid = existing.buuid
          then { b with content := f0 } else b)) = pageIds st.page := by
        unfold pageIds
        rw [List.filterMap_map]
        refine filterMap_congr_mem ?_
        intro b hb
        show idTruthy (extractTodoistId ((if b.buuid = existing.buuid
          then { b with content := f0 } else b) : Block).content)
          = idTruthy (extractTodoistId b.content)
        by_cases hbb : b.buuid = existing.buuid
        · rw [if_pos hbb]
          have hbb0 : b = b0 :=
            nodup_map_eq hinv.buuidNodup hb hb0mem (by rw [hbb, hb0uuid])
          show idTruthy (extractTodoistId f0) = idTruthy (extractTodoistId b.content)
          rw [hf0id, hbb0, hb0id]
        · rw [if_neg hbb]
      refine ⟨?_, ?_, ?_, ?_, ?_, ?_, ?_, ?_⟩
      · show ((st.page.map (fun b => if b.buuid = existing.buuid
            then { b with content := f0 } else b)).map (fun b => b.buuid)).Nodup
        rw [hmapbuuid]
        exact hinv.buuidNodup
      · intro b hb
        obtain ⟨b1, hb1, rfl⟩ := List.mem_map.mp hb
        show ((if b1.buuid = existing.buuid
          then { b1 with content := f0 } else b1) : Block).buuid < st.next
        rw [hgbuuid b1]
        exact hinv.buuidLt b1 hb1
      · exact hinv.keysNodup
      · intro k' eb' hfind'
        obtain ⟨b1, hb1, hbu, hbi⟩ := hinv.findPage k' eb' hfind'
        refine ⟨(if b1.buuid = existing.buuid then { b1 with content := f0 } else b1),
          List.mem_map_of_mem _ hb1, ?_, ?_⟩
        · rw [hgbuuid b1]
          exact hbu
        · by_cases hbb : b1.buuid = existing.buuid
          · have hmem1 : (k', eb') ∈ st.bm := assocFind_some_mem hfind'
            have hmem2 : (k, existing) ∈ st.bm := assocFind_some_mem hf
            have hpe : (k', eb') = (k, existing) :=
              nodup_map_eq hinv.valuesNodup hmem1 hmem2 (by
                show eb'.buuid = existing.buuid
                rw [← hbu]
                exact hbb)
            have hk' : k' = k := congrArg Prod.fst hpe
            rw [if_pos hbb]
            show idTruthy (extractTodoistId f0) = some k'
            rw [hf0id, hk']
          · rw [if_neg hbb]
            exact hbi
      · exact hinv.valuesNodup
      · show (pageIds (st.page.map (fun b => if b.buuid = existing.buuid
            then { b with content := f0 } else b))).Nodup
        rw [hpageIdsEq]
        exact hinv.idsNodup
      · intro k' hk'
        have hk2 : k' ∈ pageIds st.page := by
          rw [← hpageIdsEq]
          exact hk'
        exact hinv.idsCovered k' hk2
      · exact hinv.bmLt
    | none =>
      rw [writeStep_append_char hid hf]
      have hjs : jsMapSet st.bm k ⟨st.next, c⟩ = st.bm ++ [(k, ⟨st.next, c⟩)] :=
        jsMapSet_absent _ hf
      have hknotin : ∀ p ∈ st.bm, p.1 ≠ k := assocFind_none_iff.mp hf
      have hsing : pageIds [(⟨st.next, c⟩ : Block)] = [k] := by
        unfold pageIds
        simp [hid]
      refine ⟨?_, ?_, ?_, ?_, ?_, ?_, ?_, ?_⟩
      · show ((st.page ++ [(⟨st.next, c⟩ : Block)]).map (fun b => b.buuid)).Nodup
        rw [List.map_append, List.nodup_append]
        refine ⟨hinv.buuidNodup, by simp, ?_⟩
        intro a ha hb
        obtain ⟨b1, hb1, rfl⟩ := List.mem_map.mp ha
        simp at hb
        exact (Nat.ne_of_lt (hinv.buuidLt b1 hb1)) hb
      · intro b hb
        rcases List.mem_append.mp hb with h1 | h2
        · exact Nat.lt_succ_of_lt (hinv.buuidLt b h1)
        · rw [List.mem_singleton] at h2
          rw [h2]
          exact Nat.lt_succ_self _
      · show ((jsMapSet st.bm k ⟨st.next, c⟩).map Prod.fst).Nodup
        rw [hjs, List.map_append, List.nodup_append]
        refine ⟨hinv.keysNodup, by simp, ?_⟩
        intro a ha hb
        obtain ⟨p, hp, rfl⟩ := List.mem_map.mp ha
        simp at hb
        exact hknotin p hp hb
      · intro k' eb' hfind'
        have hfind2 : assocFind (st.bm ++ [(k, (⟨st.next, c⟩ : Block))]) k' = some eb' := by
          rw [← hjs]
          exact hfind'
        cases hfb : assocFind st.bm k' with
        | some e =>
          rw [assocFind_append_left hfb] at hfind2
          injection hfind2 with he
          obtain ⟨b1, hb1, hbu, hbi⟩ := hinv.findPage k' e hfb
          exact ⟨b1, List.mem_append_left _ hb1, by rw [hbu, he], hbi⟩
        | none =>
          rw [assocFind_append_right hfb, assocFind_singleton] at hfind2
          have hkk : k = k' ∧ eb' = ⟨st.next, c⟩ := by
            by_cases hkk2 : k = k'
            · rw [if_pos hkk2] at hfind2
              injection hfind2 with he
              exact ⟨hkk2, he.symm⟩
            · rw [if_neg hkk2] at hfind2
              exact Option.noConfusion hfind2
          obtain ⟨hkk, hebe⟩ := hkk
          refine ⟨⟨st.next, c⟩, List.mem_append_right _ (List.mem_singleton_self _), ?_, ?_⟩
          · rw [hebe]
          · show idTruthy (extractTodoistId c) = some k'
            rw [hid, hkk]
      · show ((jsMapSet st.bm k ⟨st.next, c⟩).map (fun p => p.2.buuid)).Nodup
        rw [hjs, List.map_append, List.nodup_append]
        refine ⟨hinv.valuesNodup, by simp, ?_⟩
        intro a ha hb
        obtain ⟨p, hp, rfl⟩ := List.mem_map.mp ha
        simp at hb
        exact (Nat.ne_of_lt (hinv.bmLt p hp)) hb
      · show (pageIds (st.page ++ [(⟨st.next, c⟩ : Block)])).Nodup
        rw [pageIds_append, hsing, List.nodup_append]
        refine ⟨hinv.idsNodup, List.nodup_singleton _, ?_⟩
        intro a ha hb
        rw [List.mem_singleton] at hb
        rw [hb] at ha
        have hcov := hinv.idsCovered k ha
        rw [hf] at hcov
        exact Bool.noConfusion hcov
      · intro k' hk'
        have hk2 : k' ∈ pageIds st.page ++ [k] := by
          rw [← hsing, ← pageIds_append]
          exact hk'
        show (assocFind (jsMapSet st.bm k ⟨st.next, c⟩) k').isSome = true
        rw [hjs]
        rcases List.mem_append.mp hk2 with h1 | h2
        · obtain ⟨v, hv⟩ := Option.isSome_iff_exists.mp (hinv.idsCovered k' h1)
          rw [assocFind_append_left hv]
          rfl
        · rw [List.mem_singleton] at h2
          rw [h2, assocFind_append_right hf, assocFind_singleton, if_pos rfl]
          rfl
      · intro p hp
        have hp2 : p ∈ st.bm ++ [(k, (⟨st.next, c⟩ : Block))] := by
          rw [← hjs]
          exact hp
        rcases List.mem_append.mp hp2 with h1 | h2
        · exact Nat.lt_succ_of_lt (hinv.bmLt p h1)
        · rw [List.mem_singleton] at h2
          rw [h2]
          exact Nat.lt_succ_self _

theorem writeFold_inv {cs : List (List String)} {st : WriteState}
    (hshape : ∀ c ∈ cs, ∃ y rest, c = ("[[" ++ y) :: rest)
    (hinv : WriteInv st) : WriteInv (cs.foldl writeStep st) := by
  induction cs generalizing st with
  | nil => exact hinv
  | cons c tl ih =>
    rw [List.foldl_cons]
    exact ih (fun x hx => hshape x (List.mem_cons_of_mem c hx))
      (writeStep_inv (hshape c (List.mem_cons_self c tl)) hinv)

/-- The invariant holds at loop entry, from the stated preconditions on the
container. -/
theorem writeInv_init (page : List Block) (next : Nat)
    (hbuuid : (page.map (fun b => b.buuid)).Nodup)
    (hnext : ∀ b ∈ page, b.buuid < next)
    (hpage : (pageIds page).Nodup) :
    WriteInv ⟨page, buildBlockMap page, [], next⟩ := by
  refine ⟨hbuuid, hnext, buildBlockMap_keys_nodup page, ?_, ?_, hpage, ?_, ?_⟩
  · intro k eb hfind
    obtain ⟨b, hbmem, hbid, hbe⟩ := buildBlockMap_mem (assocFind_some_mem hfind)
    exact ⟨b, hbmem, (congrArg Block.buuid hbe).symm, hbid⟩
  · have hdm : (buildBlockMap page).Nodup :=
      List.Nodup.of_map _ (buildBlockMap_keys_nodup page)
    refine List.Nodup.map_on ?_ hdm
    intro p hp q hq hpq
    obtain ⟨bp, hbpmem, hbpid, hbpe⟩ := buildBlockMap_mem hp
    obtain ⟨bq, hbqmem, hbqid, hbqe⟩ := buildBlockMap_mem hq
    have hbb : bp = bq := nodup_map_eq hbuuid hbpmem hbqmem (by
      rw [← hbpe, ← hbqe]
      exact hpq)
    have hkeq : p.1 = q.1 := by
      rw [hbb] at hbpid
      exact Option.some.inj (hbpid.symm.trans hbqid)
    have hvaleq : p.2 = q.2 := by
      rw [hbpe, hbqe, hbb]
    exact Prod.ext hkeq hvaleq
  · intro k hk
    obtain ⟨b, hbmem, hbid⟩ := List.mem_filterMap.mp hk
    exact bbFold_covered hbmem hbid
  · intro p hp
    obtain ⟨b, hbmem, _, hbe⟩ := buildBlockMap_mem hp
    rw [hbe]
    exact hnext b hbmem

/-- C10: per-container id uniqueness is preserved.  For a container whose
top-level blocks have pairwise-distinct uuids (all below the fresh-uuid
supply) and pairwise-distinct extracted todoist ids, `writeBlocksToPage`
applied to any desired list of `blockContent`-shaped contents (first line
opening with `"[["`) leaves the container's extracted ids pairwise distinct:
a desired id updates the one block mapped to it or appends one fresh block,
never duplicating an id. -/
theorem C10_theorem (aliases : StatusAliases) (cs : List (List String))
    (page : List Block) (next : Nat)
    (hbuuid : (page.map (fun b => b.buuid)).Nodup)
    (hnext : ∀ b ∈ page, b.buuid < next)
    (hpage : (pageIds page).Nodup)
    (hshape : ∀ c ∈ cs, ∃ y rest, c = ("[[" ++ y) :: rest) :
    (pageIds (writeBlocksToPage aliases cs page next).1).Nodup := by
  have hinv := writeFold_inv hshape (writeInv_init page next hbuuid hnext hpage)
  unfold writeBlocksToPage
  by_cases hcond : cs = [] ∧ buildBlockMap page = []
  · rw [if_pos hcond]
    dsimp only
    rw [pageIds_placeholder_append]
    exact List.Nodup.sublist (pageIds_sublist (List.filter_sublist _)) hinv.idsNodup
  · rw [if_neg hcond]
    dsimp only
    exact List.Nodup.sublist (pageIds_sublist (List.filter_sublist _)) hinv.idsNodup

/-- Fixture: an existing container block for the uniqueness run. -/
def c10Old : Block := ⟨0, ["[[X]] old", "todoist-id:: [9](u)"]⟩

/-- Fixture: a desired content whose title line opens with `"[["`. -/
def c10New : List String :=
  ("[[" ++ "2024-01-02]] New") :: ["todoist-id:: [10](u)"]

/-- C10 witness: the uniqueness theorem applied at a concrete container and
desired list. -/
theorem C10_witness :
    (pageIds (writeBlocksToPage alFix [c10New] [c10Old] 3).1).Nodup :=
  C10_theorem alFix [c10New] [c10Old] 3 (by decide) (by decide) (by decide)
    (fun c hc => by
      rw [List.mem_singleton] at hc
      subst hc
      exact ⟨"2024-01-02]] New", ["todoist-id:: [10](u)"], rfl⟩)

theorem mem_jsStableInsert {α : Type} {le : α → α → Bool} {x y : α} {l : List α}
    (h : y ∈ jsStableInsert le x l) : y = x ∨ y ∈ l := by
  induction l with
  | nil =>
    have h' : y ∈ [x] := h
    exact Or.inl (List.mem_singleton.mp h')
  | cons z zs ih =>
    have h' : y ∈ (if le x z then x :: z :: zs else z :: jsStableInsert le x zs) := h
    by_cases hc : le x z = true
    · rw [if_pos hc] at h'
      rcases List.mem_cons.mp h' with rfl | h2
      · exact Or.inl rfl
      · exact Or.inr h2
    · rw [if_neg hc] at h'
      rcases List.mem_cons.mp h' with rfl | h2
      · exact Or.inr (List.mem_cons_self _ _)
      · rcases ih h2 with h3 | h3
        · exact Or.inl h3
        · exact Or.inr (List.mem_cons_of_mem _ h3)

/-- Stable insertion keeps the list sorted, for a consistent comparator. -/
theorem jsStableInsert_pairwise {α : Type} {le : α → α → Bool}
    (htot : ∀ a b, ¬le a b = true → le b a = true)
    (htrans : ∀ a b c, le a b = true → le b c = true → le a c = true)
    (x : α) (l : List α) (hl : l.Pairwise (fun a b => le a b = true)) :
    (jsStableInsert le x l).Pairwise (fun a b => le a b = true) := by
  induction l with
  | nil => exact List.pairwise_singleton _ _
  | cons h tl ih =>
    obtain ⟨hhead, htl⟩ := List.pairwise_cons.mp hl
    show (if le x h then x :: h :: tl
      else h :: jsStableInsert le x tl).Pairwise (fun a b => le a b = true)
    by_cases hxh : le x h = true
    · rw [if_pos hxh]
      refine List.pairwise_cons.mpr ⟨?_, hl⟩
      intro y hy
      rcases List.mem_cons.mp hy with rfl | hmem
      · exact hxh
      · exact htrans x h y hxh (hhead y hmem)
    · rw [if_neg hxh]
      refine List.pairwise_cons.mpr ⟨?_, ih htl⟩
      intro y hy
      rcases mem_jsStableInsert hy with he | hmem
      · rw [he]
        exact htot x h hxh
      · exact hhead y hmem

/-- `Array.prototype.sort` with a consistent comparator sorts. -/
theorem jsStableSort_pairwise {α : Type} {le : α → α → Bool}
    (htot : ∀ a b, ¬le a b = true → le b a = true)
    (htrans : ∀ a b c, le a b = true → le b c = true → le a c = true)
    (l : List α) : (jsStableSort le l).Pairwise (fun a b => le a b = true) := by
  induction l with
  | nil => exact List.Pairwise.nil
  | cons x xs ih =>
    show (jsStableInsert le x (jsStableSort le xs)).Pairwise (fun a b => le a b = true)
    exact jsStableInsert_pairwise htot htrans x _ ih

theorem jsStableInsert_perm {α : Type} (le : α → α → Bool) (x : α) (l : List α) :
    (jsStableInsert le x l).Perm (x :: l) := by
  induction l with
  | nil => exact List.Perm.refl _
  | cons y ys ih =>
    show (if le x y then x :: y :: ys else y :: jsStableInsert le x ys).Perm (x :: y :: ys)
    by_cases h : le x y = true
    · rw [if_pos h]
    · rw [if_neg h]
      exact (List.Perm.cons y ih).trans (List.Perm.swap x y ys)

theorem jsStableSort_perm {α : Type} (le : α → α → Bool) (l : List α) :
    (jsStableSort le l).Perm l := by
  induction l with
  | nil => exact List.Perm.refl _
  | cons x xs ih =>
    show (jsStableInsert le x (jsStableSort le xs)).Perm (x :: xs)
    exact (jsStableInsert_perm le x _).trans (List.Perm.cons x ih)

/-- Totality of the comparator-induced order, from totality of
`localeCompare`. -/
theorem taskCmp_le_total (lc : String → String → Int) (jd : JsDate)
    (hlc : ∀ x y, lc x y ≤ 0 ∨ lc y x ≤ 0)
    (a b : TodoistBackupTask) (h : ¬taskCmp lc jd a b ≤ 0) :
    taskCmp lc jd b a ≤ 0 := by
  unfold taskCmp at h ⊢
  cases hac : a.completed <;> cases hbc : b.completed <;>
    simp [hac, hbc] at h ⊢ <;>
    cases hta : dueTimestamp jd a.due <;> cases htb : dueTimestamp jd b.due <;>
      simp [hta, htb] at h ⊢ <;>
      rcases hlc (safeText a.content) (safeText b.content) with hl | hl <;> omega

/-- Transitivity of the comparator-induced order, from transitivity of
`localeCompare`. -/
theorem taskCmp_le_trans (lc : String → String → Int) (jd : JsDate)
    (hlc : ∀ x y z, lc x y ≤ 0 → lc y z ≤ 0 → lc x z ≤ 0)
    (a b c : TodoistBackupTask)
    (hab : taskCmp lc jd a b ≤ 0) (hbc : taskCmp lc jd b c ≤ 0) :
    taskCmp lc jd a c ≤ 0 := by
  unfold taskCmp at hab hbc ⊢
  cases hac : a.completed <;> cases hbc2 : b.completed <;> cases hcc : c.completed <;>
    simp [hac, hbc2, hcc] at hab hbc ⊢ <;>
    cases hta : dueTimestamp jd a.due <;> cases htb : dueTimestamp jd b.due <;>
      cases htc : dueTimestamp jd c.due <;>
      simp [hta, htb, htc] at hab hbc ⊢ <;>
      first
        | omega
        | exact hlc _ _ _ hab hbc
        | (split_ifs at hab hbc ⊢ <;>
            first
              | omega
              | exact hlc _ _ _ hab hbc)

/-- The grouping fold of `writeBlocks`: a key's group accumulates exactly the
tasks routed to that page, in input order. -/
theorem groupFold_find (jd : JsDate) (pfx : String) (tasks : List TodoistBackupTask)
    (m : List (String × List TodoistBackupTask)) (name : String) :
    assocFind (tasks.foldl (groupStep jd pfx) m) name
      = (match assocFind m name with
         | some g =>
           some (g ++ tasks.filter (fun t => resolveTaskPageName jd t pfx = name))
         | none =>
           if tasks.filter (fun t => resolveTaskPageName jd t pfx = name) = [] then none
           else some (tasks.filter (fun t => resolveTaskPageName jd t pfx = name))) := by
  induction tasks generalizing m with
  | nil =>
    cases hm : assocFind m name with
    | some g =>
      dsimp only
      rw [List.filter_nil, List.append_nil]
      exact hm
    | none =>
      dsimp only
      rw [List.filter_nil, if_pos rfl]
      exact hm
  | cons t rest ih =>
    rw [List.foldl_cons]
    by_cases hname : resolveTaskPageName jd t pfx = name
    · have hfil : (t :: rest).filter (fun t => resolveTaskPageName jd t pfx = name)
          = t :: rest.filter (fun t => resolveTaskPageName jd t pfx = name) := by
        rw [List.filter_cons_of_pos]
        exact decide_eq_true hname
      cases hm : assocFind m name with
      | some g =>
        have hstep : groupStep jd pfx m t = jsMapSet m name (g ++ [t]) := by
          unfold groupStep
          rw [hname]
          dsimp only
          rw [hm]
        rw [hstep, ih, assocFind_jsMapSet_self, hfil]
        dsimp only
        rw [List.append_assoc]
        rfl
      | none =>
        have hstep : groupStep jd pfx m t = m ++ [(name, [t])] := by
          unfold groupStep
          rw [hname]
          dsimp only
          rw [hm]
        rw [hstep, ih]
        have hfind : assocFind (m ++ [(name, [t])]) name = some [t] := by
          rw [assocFind_append_right hm, assocFind_singleton, if_pos rfl]
        rw [hfind, hfil]
        dsimp only
        rw [if_neg (List.cons_ne_nil _ _)]
        rfl
    · have hfil : (t :: rest).filter (fun t => resolveTaskPageName jd t pfx = name)
          = rest.filter (fun t => resolveTaskPageName jd t pfx = name) := by
        rw [List.filter_cons_of_neg]
        intro hc
        exact hname (of_decide_eq_true hc)
      have hkeep : assocFind (groupStep jd pfx m t) name = assocFind m name := by
        unfold groupStep
        dsimp only
        cases hmt : assocFind m (resolveTaskPageName jd t pfx) with
        | some g =>
          dsimp only
          exact assocFind_jsMapSet_ne m (resolveTaskPageName jd t pfx) name _
            (fun he => hname he.symm)
        | none =>
          dsimp only
          cases hm : assocFind m name with
          | some g => exact assocFind_append_left hm
          | none =>
            rw [assocFind_append_right hm, assocFind_singleton, if_neg hname]
      rw [ih, hkeep, hfil]

/-- The `tasksByPage` groups of `writeBlocks` are the non-empty page-routing
fibers: a looked-up group is exactly the input tasks routed to that page. -/
theorem groupTasksByPage_find {jd : JsDate} {pfx : String}
    {tasks : List TodoistBackupTask} {name : String} {group : List TodoistBackupTask}
    (h : assocFind (groupTasksByPage jd pfx tasks) name = some group) :
    group = tasks.filter (fun t => resolveTaskPageName jd t pfx = name) ∧
      group ≠ [] := by
  unfold groupTasksByPage at h
  rw [groupFold_find] at h
  have h2 : (if tasks.filter (fun t => resolveTaskPageName jd t pfx = name) = []
      then none
      else some (tasks.filter (fun t => resolveTaskPageName jd t pfx = name)))
      = some group := h
  by_cases hfil : tasks.filter (fun t => resolveTaskPageName jd t pfx = name) = []
  · rw [if_pos hfil] at h2
    exact Option.noConfusion h2
  · rw [if_neg hfil] at h2
    injection h2 with he
    exact ⟨he.symm, by rw [← he]; exact hfil⟩

/-- The truthy ids of a desired content list. -/
def csIds (cs : List (List String)) : List String :=
  cs.filterMap (fun c => idTruthy (extractTodoistId c))

/-- A uuid-preserving in-place update that fixes every block above the
threshold leaves the filtered contents unchanged. -/
theorem filter_map_update {u : Nat} {g : Block → Block}
    (hgb : ∀ b, (g b).buuid = b.buuid)
    (hgc : ∀ b, u ≤ b.buuid → g b = b) (l : List Block) :
    ((l.map g).filter (fun b => u ≤ b.buuid)).map (fun b => b.content)
      = (l.filter (fun b => u ≤ b.buuid)).map (fun b => b.content) := by
  induction l with
  | nil => rfl
  | cons b tl ih =>
    rw [List.map_cons]
    by_cases hb : u ≤ b.buuid
    · have hcons : (g b :: tl.map g).filter (fun b => u ≤ b.buuid)
          = g b :: (tl.map g).filter (fun b => u ≤ b.buuid) := by
        rw [List.filter_cons_of_pos]
        show decide (u ≤ (g b).buuid) = true
        rw [hgb]
        exact decide_eq_true hb
      have hcons2 : (b :: tl).filter (fun b => u ≤ b.buuid)
          = b :: tl.filter (fun b => u ≤ b.buuid) := by
        rw [List.filter_cons_of_pos]
        exact decide_eq_true hb
      rw [hcons, hcons2, List.map_cons, List.map_cons, hgc b hb, ih]
    · have hcons : (g b :: tl.map g).filter (fun b => u ≤ b.buuid)
          = (tl.map g).filter (fun b => u ≤ b.buuid) := by
        rw [List.filter_cons_of_neg]
        show ¬decide (u ≤ (g b).buuid) = true
        rw [hgb]
        exact fun hc => hb (of_decide_eq_true hc)
      have hcons2 : (b :: tl).filter (fun b => u ≤ b.buuid)
          = tl.filter (fun b => u ≤ b.buuid) := by
        rw [List.filter_cons_of_neg]
        exact fun hc => hb (of_decide_eq_true hc)
      rw [hcons, hcons2, ih]

/-- Every id seen after one step was seen before, or is the step's own id. -/
theorem writeStep_seen_src {st : WriteState} {c : List String} {k' : String}
    (h : k' ∈ (writeStep st c).seen) :
    k' ∈ st.seen ∨ idTruthy (extractTodoistId c) = some k' := by
  cases hid : idTruthy (extractTodoistId c) with
  | none =>
    unfold writeStep at h
    rw [hid] at h
    exact Or.inl h
  | some k =>
    cases hf : assocFind st.bm k with
    | some existing =>
      obtain ⟨f0, _, heq⟩ := writeStep_update_char hid hf
      rw [heq] at h
      rcases List.mem_append.mp h with h1 | h2
      · exact Or.inl h1
      · rw [List.mem_singleton] at h2
        exact Or.inr (by rw [h2])
    | none =>
      rw [writeStep_append_char hid hf] at h
      rcases List.mem_append.mp h with h1 | h2
      · exact Or.inl h1
      · rw [List.mem_singleton] at h2
        exact Or.inr (by rw [h2])

/-- One loop iteration either leaves the fresh-block contents unchanged
(skip, or update of a pre-existing block) or appends exactly the desired
content. -/
theorem writeStep_new_contents {st : WriteState} {c : List String} {u : Nat}
    (hu : u ≤ st.next)
    (hfresh : ∀ p ∈ st.bm, u ≤ p.2.buuid → p.1 ∈ st.seen)
    (hdisjc : ∀ k, idTruthy (extractTodoistId c) = some k → k ∉ st.seen) :
    ((writeStep st c).page.filter (fun b => u ≤ b.buuid)).map (fun b => b.content)
      = (st.page.filter (fun b => u ≤ b.buuid)).map (fun b => b.content) ∨
    ((writeStep st c).page.filter (fun b => u ≤ b.buuid)).map (fun b => b.content)
      = (st.page.filter (fun b => u ≤ b.buuid)).map (fun b => b.content) ++ [c] := by
  cases hid : idTruthy (extractTodoistId c) with
  | none =>
    left
    unfold writeStep
    rw [hid]
  | some k =>
    cases hf : assocFind st.bm k with
    | some existing =>
      left
      obtain ⟨f0, _, heq⟩ := writeStep_update_char hid hf
      rw [heq]
      have hex_lt : ¬u ≤ existing.buuid := by
        intro hge
        exact (hdisjc k hid) (hfresh (k, existing) (assocFind_some_mem hf) hge)
      refine filter_map_update ?_ ?_ st.page
      · intro b
        by_cases hbb : b.buuid = existing.buuid
        · rw [if_pos hbb]
        · rw [if_neg hbb]
      · intro b hub
        rw [if_neg (fun hbb => hex_lt (by rw [← hbb]; exact hub))]
    | none =>
      right
      rw [writeStep_append_char hid hf]
      show (((st.page ++ [(⟨st.next, c⟩ : Block)]).filter
          (fun b => u ≤ b.buuid)).map (fun b => b.content)) = _
      rw [List.filter_append]
      have hone : ([(⟨st.next, c⟩ : Block)].filter (fun b => u ≤ b.buuid))
          = [⟨st.next, c⟩] := by
        rw [List.filter_cons_of_pos]
        · rfl
        · exact decide_eq_true hu
      rw [hone, List.map_append]
      rfl

/-- The fold appends the created blocks at the end of the container, in
desired-list order: the contents of the fresh blocks form a sublist of the
desired list. -/
theorem writeFold_new_contents {cs : List (List String)} {st : WriteState} {u : Nat}
    (hu : u ≤ st.next)
    (hfresh : ∀ p ∈ st.bm, u ≤ p.2.buuid → p.1 ∈ st.seen)
    (hnodup : (csIds cs).Nodup)
    (hdisj : ∀ k ∈ csIds cs, k ∉ st.seen) :
    ∃ created, created.Sublist cs ∧
      ((cs.foldl writeStep st).page.filter (fun b => u ≤ b.buuid)).map
          (fun b => b.content)
        = (st.page.filter (fun b => u ≤ b.buuid)).map (fun b => b.content)
            ++ created := by
  induction cs generalizing st with
  | nil =>
    refine ⟨[], List.nil_sublist _, ?_⟩
    rw [List.append_nil]
    rfl
  | cons c rest ih =>
    rw [List.foldl_cons]
    have hu' : u ≤ (writeStep st c).next := le_trans hu (writeStep_next_mono st c)
    have hfresh' := @writeStep_fresh_seen st c u hfresh
    cases hid : idTruthy (extractTodoistId c) with
    | none =>
      have hcs : csIds (c :: rest) = csIds rest := by
        unfold csIds
        simp [List.filterMap_cons, hid]
      have hnodup' : (csIds rest).Nodup := by
        rw [← hcs]
        exact hnodup
      have hdisj' : ∀ k ∈ csIds rest, k ∉ (writeStep st c).seen := by
        intro k' hk' hmem
        rcases writeStep_seen_src hmem with h1 | h2
        · exact hdisj k' (by rw [hcs]; exact hk') h1
        · rw [hid] at h2
          exact Option.noConfusion h2
      obtain ⟨created, hsub, heqF⟩ := ih hu' hfresh' hnodup' hdisj'
      have hstep : writeStep st c = st := by
        unfold writeStep
        rw [hid]
      refine ⟨created, List.Sublist.cons c hsub, ?_⟩
      rw [hstep] at heqF ⊢
      exact heqF
    | some k =>
      have hcs : csIds (c :: rest) = k :: csIds rest := by
        unfold csIds
        simp [List.filterMap_cons, hid]
      have hnodup' : (csIds rest).Nodup := by
        rw [hcs] at hnodup
        exact (List.nodup_cons.mp hnodup).2
      have hknotin : k ∉ csIds rest := by
        rw [hcs] at hnodup
        exact (List.nodup_cons.mp hnodup).1
      have hkseen : k ∉ st.seen := by
        apply hdisj
        rw [hcs]
        exact List.mem_cons_self _ _
      have hdisjc : ∀ k0, idTruthy (extractTodoistId c) = some k0 → k0 ∉ st.seen := by
        intro k0 hk0
        rw [hid] at hk0
        injection hk0 with he
        rw [← he]
        exact hkseen
      have hdisj' : ∀ k' ∈ csIds rest, k' ∉ (writeStep st c).seen := by
        intro k' hk' hmem
        rcases writeStep_seen_src hmem with h1 | h2
        · exact hdisj k' (by rw [hcs]; exact List.mem_cons_of_mem _ hk') h1
        · rw [hid] at h2
          injection h2 with he
          exact hknotin (he ▸ hk')
      obtain ⟨created, hsub, heqF⟩ := ih hu' hfresh' hnodup' hdisj'
      rcases writeStep_new_contents hu hfresh hdisjc with hF | hF
      · exact ⟨created, List.Sublist.cons c hsub, by rw [heqF, hF]⟩
      · refine ⟨c :: created, List.Sublist.cons₂ c hsub, ?_⟩
        rw [heqF, hF, List.append_assoc]
        rfl

/-- Filtering by a stronger predicate first does not change the result. -/
theorem filter_filter_of_imp {α : Type} {p q : α → Bool} {l : List α}
    (h : ∀ a ∈ l, p a = true → q a = true) :
    (l.filter q).filter p = l.filter p := by
  induction l with
  | nil => rfl
  | cons a tl ih =>
    by_cases hq : q a = true
    · rw [List.filter_cons_of_pos hq]
      by_cases hp : p a = true
      · rw [List.filter_cons_of_pos hp, List.filter_cons_of_pos hp,
          ih (fun x hx => h x (List.mem_cons_of_mem a hx))]
      · rw [List.filter_cons_of_neg hp, List.filter_cons_of_neg hp,
          ih (fun x hx => h x (List.mem_cons_of_mem a hx))]
    · have hp : ¬p a = true := fun hpa => hq (h a (List.mem_cons_self a tl) hpa)
      rw [List.filter_cons_of_neg hq, List.filter_cons_of_neg hp,
        ih (fun x hx => h x (List.mem_cons_of_mem a hx))]

/-- The removal pass of `writeBlocksToPage` never deletes a fresh block: a
mapped entry with a fresh uuid has its key recorded as seen. -/
theorem writeBlocksToPage_fresh (al : StatusAliases) (cs : List (List String))
    (page : List Block) (next : Nat)
    (hbne : cs ≠ [])
    (hnext : ∀ b ∈ page, b.buuid < next) :
    ((writeBlocksToPage al cs page next).1.filter (fun b => next ≤ b.buuid)).map
        (fun b => b.content)
      = (((cs.foldl writeStep ⟨page, buildBlockMap page, [], next⟩).page.filter
          (fun b => next ≤ b.buuid)).map (fun b => b.content)) := by
  have hfresh0 : ∀ p ∈ buildBlockMap page, next ≤ p.2.buuid → p.1 ∈ ([] : List String) := by
    intro p hp hge
    obtain ⟨b, hbmem, _, hbe⟩ := buildBlockMap_mem hp
    rw [hbe] at hge
    exact absurd hge (Nat.not_le_of_lt (hnext b hbmem))
  have hfreshF := @writeFold_fresh_seen cs ⟨page, buildBlockMap page, [], next⟩ next hfresh0
  simp only [writeBlocksToPage]
  rw [if_neg (fun hand => hbne hand.1)]
  dsimp only
  refine congrArg (List.map (fun b : Block => b.content)) ?_
  apply filter_filter_of_imp
  intro b hb hp
  refine decide_eq_true ?_
  intro hmemrem
  obtain ⟨p', hp', hpeq⟩ := List.mem_filterMap.mp hmemrem
  split at hpeq
  · rename_i hcond
    injection hpeq with he
    have hge : next ≤ p'.2.buuid := by
      rw [he]
      exact of_decide_eq_true hp
    exact hcond.1 (hfreshF p' hp' hge)
  · exact Option.noConfusion hpeq

/-- Modelled from the spec: the per-container step of the sync pipeline
(spec sections 4.4 and 4.5) — the current orchestrator source (`src/main.ts`)
is absent from the repository snapshot, which ends at the legacy
single-page version.  For one destination container, the desired blocks are
the sorted `buildBlocks` output for the tasks grouped into that container,
handed in that order to the reconciliation engine `writeBlocksToPage`. -/
def syncContainer (lc : String → String → Int) (jd : JsDate)
    (pm lm : String → Option String) (al : StatusAliases) (pfx : String)
    (tasks : List TodoistBackupTask) (name : String)
    (page : List Block) (next : Nat) : List Block × Nat :=
  writeBlocksToPage al
    (buildBlocks lc jd ((assocFind (groupTasksByPage jd pfx tasks) name).getD [])
      pm lm al)
    page next

/-- C8: within-container ordering.  The desired blocks of a container are
the `blockContent`s of its task group sorted by the comparator (completed
last, then ascending due timestamp with absent due last, then locale title
comparison) — provided the abstract `localeCompare` is total and transitive,
as `Array.prototype.sort` requires of a consistent comparator — and the
fresh blocks created in the container appear, in container order, as a
sublist of that sorted desired list: creation follows the sorted order. -/
theorem C8_theorem (lc : String → String → Int) (jd : JsDate)
    (pm lm : String → Option String) (al : StatusAliases) (pfx : String)
    (tasks : List TodoistBackupTask) (name : String)
    (group : List TodoistBackupTask) (page : List Block) (next : Nat)
    (hgrp : assocFind (groupTasksByPage jd pfx tasks) name = some group)
    (hlc_tot : ∀ x y, lc x y ≤ 0 ∨ lc y x ≤ 0)
    (hlc_trans : ∀ x y z, lc x y ≤ 0 → lc y z ≤ 0 → lc x z ≤ 0)
    (hnext : ∀ b ∈ page, b.buuid < next)
    (hnodup : (csIds (buildBlocks lc jd group pm lm al)).Nodup) :
    group = tasks.filter (fun t => resolveTaskPageName jd t pfx = name) ∧
    (sortTasks lc jd group).Perm group ∧
    (sortTasks lc jd group).Pairwise (fun a b => taskCmp lc jd a b ≤ 0) ∧
    (∃ created, created.Sublist (buildBlocks lc jd group pm lm al) ∧
      (((syncContainer lc jd pm lm al pfx tasks name page next).1.filter
          (fun b => next ≤ b.buuid)).map (fun b => b.content)) = created) := by
  obtain ⟨hgfil, hgne⟩ := groupTasksByPage_find hgrp
  refine ⟨hgfil, jsStableSort_perm _ _, ?_, ?_⟩
  · have hp := jsStableSort_pairwise
      (fun a b hab => decide_eq_true (taskCmp_le_total lc jd hlc_tot a b
        (fun hP => hab (decide_eq_true hP))))
      (fun a b c hab hbc => decide_eq_true (taskCmp_le_trans lc jd hlc_trans a b c
        (of_decide_eq_true hab) (of_decide_eq_true hbc)))
      group
    exact hp.imp (fun h => of_decide_eq_true h)
  · have hsync : syncContainer lc jd pm lm al pfx tasks name page next
        = writeBlocksToPage al (buildBlocks lc jd group pm lm al) page next := by
      unfold syncContainer
      rw [hgrp]
      rfl
    have hsortnil : sortTasks lc jd group = [] → group = [] := by
      intro hs
      have hperm := jsStableSort_perm
        (fun a b => decide (taskCmp lc jd a b ≤ 0)) group
      unfold sortTasks at hs
      rw [hs] at hperm
      exact List.Perm.eq_nil hperm.symm
    have hbne : buildBlocks lc jd group pm lm al ≠ [] := by
      intro hc
      unfold buildBlocks at hc
      exact hgne (hsortnil (List.map_eq_nil_iff.mp hc))
    have hfresh0 : ∀ p ∈ buildBlockMap page, next ≤ p.2.buuid → p.1 ∈ ([] : List String) := by
      intro p hp hge
      obtain ⟨b, hbmem, _, hbe⟩ := buildBlockMap_mem hp
      rw [hbe] at hge
      exact absurd hge (Nat.not_le_of_lt (hnext b hbmem))
    obtain ⟨created, hsub, heqF⟩ := @writeFold_new_contents
      (buildBlocks lc jd group pm lm al) ⟨page, buildBlockMap page, [], next⟩ next
      (Nat.le_refl next) hfresh0 hnodup
      (fun k hk hmem => absurd hmem (List.not_mem_nil k))
    have hF0 : page.filter (fun b => next ≤ b.buuid) = [] := by
      rw [List.filter_eq_nil_iff]
      intro b hb hc
      exact Nat.not_le_of_lt (hnext b hb) (of_decide_eq_true hc)
    rw [hF0, List.map_nil, List.nil_append] at heqF
    refine ⟨created, hsub, ?_⟩
    rw [hsync, writeBlocksToPage_fresh al _ page next hbne hnext]
    exact heqF

/-- A trivially consistent `localeCompare` for the witness run. -/
def lcZero : String → String → Int := fun _ _ => 0

/-- Fixture task for the ordering witness. -/
def c8Task : TodoistBackupTask := { id := "5", content := "Alpha" }

/-- C8 witness: the ordering theorem applied at a concrete task list,
container, and comparator. -/
theorem C8_witness :
    [c8Task] = [c8Task].filter
        (fun t => resolveTaskPageName jdNone t "todoist" = "todoist/Backlog") ∧
    (sortTasks lcZero jdNone [c8Task]).Perm [c8Task] ∧
    (sortTasks lcZero jdNone [c8Task]).Pairwise
        (fun a b => taskCmp lcZero jdNone a b ≤ 0) ∧
    (∃ created, created.Sublist
        (buildBlocks lcZero jdNone [c8Task] (fun _ => none) (fun _ => none) alFix) ∧
      (((syncContainer lcZero jdNone (fun _ => none) (fun _ => none) alFix "todoist"
            [c8Task] "todoist/Backlog" [] 0).1.filter
          (fun b => 0 ≤ b.buuid)).map (fun b => b.content)) = created) :=
  C8_theorem lcZero jdNone (fun _ => none) (fun _ => none) alFix "todoist" [c8Task]
    "todoist/Backlog" [c8Task] [] 0
    (by decide)
    (fun _ _ => Or.inl (le_refl 0))
    (fun _ _ _ _ _ => le_refl 0)
    (fun b hb => absurd hb (List.not_mem_nil b))
    (by decide)
